import Mathlib

/-!
# Verification of `passenger_sorting.cpp` (lab1-sorts)

Shallow embedding of the passenger-sorting benchmark program and proofs of
the specification claims.  `std::vector<Passenger>` is modelled as
`List Passenger`, `int`/`long` as `Int`/`Nat`, `std::string` as `String`,
file contents as `List Char`.  Out-of-bounds vector accesses and other
fatal faults are modelled by `Option`/`Except` results (`none` / `.error`).
-/

set_option maxHeartbeats 1000000
set_option maxRecDepth 8000

/-- Lexicographic `operator<` on character sequences: the comparison
`std::string::operator<` performs (UTF-8 byte order and code-point order
agree, UTF-8 being order-preserving). -/
def strLtB : List Char → List Char → Bool
  | [], [] => false
  | [], _ :: _ => true
  | _ :: _, [] => false
  | a :: as, b :: bs =>
    if a < b then true else if b < a then false else strLtB as bs

theorem strLtB_irrefl (s : List Char) : strLtB s s = false := by
  induction s with
  | nil => rfl
  | cons a as ih => simp [strLtB, lt_irrefl, ih]

theorem strLtB_trans : ∀ {s t u : List Char}, strLtB s t = true →
    strLtB t u = true → strLtB s u = true
  | s, t, u => by
    induction s generalizing t u with
    | nil =>
      intro h1 h2
      cases t with
      | nil => exact absurd h1 (by simp [strLtB])
      | cons b bs =>
        cases u with
        | nil => exact absurd h2 (by simp [strLtB])
        | cons c cs => rfl
    | cons a as ih =>
      intro h1 h2
      cases t with
      | nil => exact absurd h1 (by simp [strLtB])
      | cons b bs =>
        cases u with
        | nil => exact absurd h2 (by simp [strLtB])
        | cons c cs =>
          rw [strLtB] at h1 h2 ⊢
          by_cases hab : a < b
          · rw [if_pos hab] at h1
            by_cases hbc : b < c
            · rw [if_pos (hab.trans hbc)]
            · rw [if_neg hbc] at h2
              by_cases hcb : c < b
              · rw [if_pos hcb] at h2
                exact absurd h2 (by simp)
              · have : b = c := le_antisymm (not_lt.mp hcb) (not_lt.mp hbc)
                rw [if_pos (this ▸ hab)]
          · rw [if_neg hab] at h1
            by_cases hba : b < a
            · rw [if_pos hba] at h1
              exact absurd h1 (by simp)
            · rw [if_neg hba] at h1
              have hab' : a = b := le_antisymm (not_lt.mp hba) (not_lt.mp hab)
              by_cases hbc : b < c
              · rw [if_pos (hab' ▸ hbc)]
              · rw [if_neg hbc] at h2
                by_cases hcb : c < b
                · rw [if_pos hcb] at h2
                  exact absurd h2 (by simp)
                · rw [if_neg hcb] at h2
                  have hbc' : b = c := le_antisymm (not_lt.mp hcb) (not_lt.mp hbc)
                  rw [if_neg (by rw [hab', hbc']; exact lt_irrefl c),
                    if_neg (by rw [hab', hbc']; exact lt_irrefl c)]
                  exact ih bs cs h1 h2

theorem strLtB_asymm {s t : List Char} (h : strLtB s t = true) :
    strLtB t s = false := by
  cases hts : strLtB t s with
  | false => rfl
  | true => exact absurd (strLtB_trans h hts) (by simp [strLtB_irrefl])

theorem strLtB_tie : ∀ {s t : List Char}, strLtB s t = false →
    strLtB t s = false → s = t
  | s, t => by
    induction s generalizing t with
    | nil =>
      intro h1 _
      cases t with
      | nil => rfl
      | cons b bs => exact absurd h1 (by simp [strLtB])
    | cons a as ih =>
      intro h1 h2
      cases t with
      | nil => exact absurd h2 (by simp [strLtB])
      | cons b bs =>
        rw [strLtB] at h1 h2
        by_cases hab : a < b
        · rw [if_pos hab] at h1
          exact absurd h1 (by simp)
        · rw [if_neg hab] at h1
          by_cases hba : b < a
          · rw [if_pos hba] at h2
            exact absurd h2 (by simp)
          · rw [if_neg hba] at h1
            rw [if_neg hab] at h2
            rw [if_neg hba] at h2
            have he : a = b := le_antisymm (not_lt.mp hba) (not_lt.mp hab)
            rw [he, ih bs h1 h2]

/-- The `Passenger` struct (main.cpp lines 22-27): full name, cabin number
(`int`, modelled as `Int`), cabin type, destination port. -/
structure Passenger where
  fullName : String
  cabinNumber : Int
  cabinType : String
  destinationPort : String
deriving DecidableEq, Inhabited

namespace Passenger

/-- `operator<` (main.cpp lines 35-41): compare by cabin number, then by
destination port, then by full name (string comparison via `strLtB`, the
lexicographic order of `std::string::operator<`). -/
def lt (a other : Passenger) : Bool :=
  if a.cabinNumber ≠ other.cabinNumber then
    decide (a.cabinNumber < other.cabinNumber)
  else if a.destinationPort ≠ other.destinationPort then
    strLtB a.destinationPort.data other.destinationPort.data
  else
    strLtB a.fullName.data other.fullName.data

/-- `operator>` (main.cpp line 49): `other < *this`. -/
def gt (a other : Passenger) : Bool := lt other a

/-- `operator<=` (main.cpp line 55): `!(other < *this)`. -/
def le (a other : Passenger) : Bool := !(lt other a)

/-- `operator>=` (main.cpp line 61): `!(*this < other)`. -/
def ge (a other : Passenger) : Bool := !(lt a other)

/-- Characterisation of `operator<` as the lexicographic strict order on the
key triple (cabin number, destination port, full name). -/
theorem lt_iff {a b : Passenger} :
    lt a b = true ↔
      (a.cabinNumber < b.cabinNumber ∨
        (a.cabinNumber = b.cabinNumber ∧
          (strLtB a.destinationPort.data b.destinationPort.data = true ∨
            (a.destinationPort = b.destinationPort ∧
              strLtB a.fullName.data b.fullName.data = true)))) := by
  by_cases h1 : a.cabinNumber = b.cabinNumber
  · by_cases h2 : a.destinationPort = b.destinationPort
    · simp [lt, h1, h2, strLtB_irrefl]
    · simp [lt, h1, h2]
  · simp only [lt, h1, ne_eq, not_false_eq_true, if_true, decide_eq_true_eq]
    constructor
    · exact fun h => Or.inl h
    · rintro (h | ⟨h, _⟩)
      · exact h
      · exact h.elim

theorem lt_self (a : Passenger) : lt a a = false := by
  simp [lt, strLtB_irrefl]

theorem lt_trans' {a b c : Passenger} (h1 : lt a b = true) (h2 : lt b c = true) :
    lt a c = true := by
  rw [lt_iff] at h1 h2 ⊢
  rcases h1 with h1 | ⟨e1, h1⟩
  · rcases h2 with h2 | ⟨e2, h2⟩
    · exact Or.inl (h1.trans h2)
    · exact Or.inl (e2 ▸ h1)
  · rcases h2 with h2 | ⟨e2, h2⟩
    · exact Or.inl (e1 ▸ h2)
    · refine Or.inr ⟨e1.trans e2, ?_⟩
      rcases h1 with h1 | ⟨f1, h1⟩
      · rcases h2 with h2 | ⟨f2, h2⟩
        · exact Or.inl (strLtB_trans h1 h2)
        · exact Or.inl (f2 ▸ h1)
      · rcases h2 with h2 | ⟨f2, h2⟩
        · exact Or.inl (f1 ▸ h2)
        · exact Or.inr ⟨f1.trans f2, strLtB_trans h1 h2⟩

theorem lt_asymm' {a b : Passenger} (h : lt a b = true) : lt b a = false := by
  cases hba : lt b a with
  | false => rfl
  | true => exact absurd (lt_trans' h hba) (by simp [lt_self])

theorem string_data_inj {s t : String} (h : s.data = t.data) : s = t := by
  cases s
  cases t
  simp only at h
  rw [h]

/-- If neither record is `<` the other they agree on all three key fields. -/
theorem lt_tie {a b : Passenger} (h1 : lt a b = false) (h2 : lt b a = false) :
    a.cabinNumber = b.cabinNumber ∧ a.destinationPort = b.destinationPort ∧
      a.fullName = b.fullName := by
  by_cases hc : a.cabinNumber = b.cabinNumber
  · by_cases hp : a.destinationPort = b.destinationPort
    · refine ⟨hc, hp, ?_⟩
      simp [lt, hc, hp] at h1 h2
      exact string_data_inj (strLtB_tie h1 h2)
    · exfalso
      have hp' : ¬ (b.destinationPort = a.destinationPort) := fun he => hp he.symm
      simp [lt, hc, hp, hp'] at h1 h2
      exact hp (string_data_inj (strLtB_tie h1 h2))
  · exfalso
    have hc' : ¬ (b.cabinNumber = a.cabinNumber) := fun he => hc he.symm
    simp [lt, hc, hc'] at h1 h2
    omega

/-- `operator<` reads only the three key fields, so records tied on those
fields are interchangeable on either side of the comparison. -/
theorem lt_congr {a b : Passenger} (hc : a.cabinNumber = b.cabinNumber)
    (hd : a.destinationPort = b.destinationPort) (hn : a.fullName = b.fullName) :
    (∀ x, lt x a = lt x b) ∧ (∀ x, lt a x = lt b x) := by
  constructor <;> intro x <;> simp [lt, hc, hd, hn]

/-- Negative transitivity: `¬(b < a)` and `¬(c < b)` give `¬(c < a)`;
this is transitivity of the derived `<=`. -/
theorem nlt_trans {a b c : Passenger} (h1 : lt b a = false) (h2 : lt c b = false) :
    lt c a = false := by
  cases hca : lt c a with
  | false => rfl
  | true =>
    exfalso
    cases hab : lt a b with
    | true =>
      have : lt c b = true := lt_trans' hca hab
      simp [h2] at this
    | false =>
      have t := lt_tie hab h1
      have : lt c b = true := ((lt_congr t.1 t.2.1 t.2.2).1 c) ▸ hca
      simp [h2] at this

theorem lt_of_lt_of_nlt {a b c : Passenger} (h1 : lt a b = true) (h2 : lt c b = false) :
    lt a c = true := by
  cases hbc : lt b c with
  | true => exact lt_trans' h1 hbc
  | false =>
    have t := lt_tie hbc h2
    exact ((lt_congr t.1 t.2.1 t.2.2).1 a) ▸ h1

end Passenger

/-- Non-decreasing with respect to the record order: every element is
`<=` (in the program's sense, `!(operator<)` reversed) each later one. -/
def SortedP (l : List Passenger) : Prop :=
  l.Pairwise (fun a b => Passenger.le a b = true)

theorem sortedP_iff (l : List Passenger) :
    SortedP l ↔ l.Pairwise (fun a b => Passenger.lt b a = false) := by
  unfold SortedP Passenger.le
  constructor <;> exact fun h => h.imp (by simp)

/-! ## Element swap (`std::swap(arr[i], arr[j])`) -/

/-- `std::swap(arr[i], arr[j])`: both reads are from the original list, as in
the C++ swap of two vector slots. -/
def swapL (l : List Passenger) (i j : Nat) : List Passenger :=
  (l.set i (l.getD j default)).set j (l.getD i default)

theorem length_swapL (l : List Passenger) (i j : Nat) :
    (swapL l i j).length = l.length := by
  simp [swapL]

theorem getElem?_swapL (l : List Passenger) {i j : Nat} (hi : i < l.length)
    (hj : j < l.length) (k : Nat) :
    (swapL l i j)[k]? = if k = j then l[i]? else if k = i then l[j]? else l[k]? := by
  unfold swapL
  by_cases hkj : k = j
  · subst hkj
    rw [List.getElem?_set_self (by simpa using hj), if_pos rfl,
      List.getD_eq_getElem?_getD, List.getElem?_eq_getElem hi]
    rfl
  · rw [List.getElem?_set_ne (by omega)]
    by_cases hki : k = i
    · subst hki
      rw [List.getElem?_set_self hi, if_neg hkj, if_pos rfl,
        List.getD_eq_getElem?_getD, List.getElem?_eq_getElem hj]
      rfl
    · rw [List.getElem?_set_ne (by omega), if_neg hkj, if_neg hki]

theorem getD_cons_perm {l : List Passenger} {j : Nat} (hj : j < l.length)
    (x : Passenger) : List.Perm ((l.getD j default) :: l.set j x) (x :: l) := by
  induction l generalizing j with
  | nil => simp at hj
  | cons a t ih =>
    cases j with
    | zero => simpa using List.Perm.swap x a t
    | succ j =>
      have hj' : j < t.length := by simpa using hj
      have step1 : (a :: t).getD (j+1) default :: (a :: t).set (j+1) x
          = t.getD j default :: a :: t.set j x := by simp
      rw [step1]
      exact (List.Perm.swap _ _ _).trans (((ih hj').cons a).trans (List.Perm.swap _ _ _))

theorem swapL_perm (l : List Passenger) {i j : Nat} (hij : i ≤ j)
    (hj : j < l.length) : List.Perm (swapL l i j) l := by
  induction l generalizing i j with
  | nil => simp at hj
  | cons a t ih =>
    cases i with
    | zero =>
      cases j with
      | zero => simp [swapL, List.set_set]
      | succ j =>
        have hj' : j < t.length := by simpa using hj
        show List.Perm (((a :: t).set 0 ((a :: t).getD (j+1) default)).set (j+1)
            ((a :: t).getD 0 default)) (a :: t)
        simp only [List.set_cons_zero, List.getD_cons_succ, List.getD_cons_zero,
          List.set_cons_succ]
        exact getD_cons_perm hj' a
    | succ i =>
      cases j with
      | zero => omega
      | succ j =>
        have hj' : j < t.length := by simpa using hj
        show List.Perm (((a :: t).set (i+1) ((a :: t).getD (j+1) default)).set (j+1)
            ((a :: t).getD (i+1) default)) (a :: t)
        simp only [List.getD_cons_succ, List.set_cons_succ]
        exact (ih (by omega) hj').cons a

/-! ## Selection sort (main.cpp lines 69-81) -/

/-- The inner scan of `selectionSort` (lines 72-77): starting from candidate
index `m`, scan indices `j, j+1, …, n-1` and keep the index of the least
element found (`arr[j] < arr[minIndex]` updates the candidate). -/
def minIdxFrom (l : List Passenger) (m j : Nat) : Nat :=
  if _ : j < l.length then
    minIdxFrom l (if Passenger.lt (l.getD j default) (l.getD m default) then j else m) (j+1)
  else m
termination_by l.length - j

theorem minIdxFrom_spec (l : List Passenger) (m j : Nat) :
    m < l.length →
      minIdxFrom l m j < l.length ∧ (minIdxFrom l m j = m ∨ j ≤ minIdxFrom l m j) ∧
        ∀ k, (k = m ∨ (j ≤ k ∧ k < l.length)) →
          Passenger.lt (l.getD k default) (l.getD (minIdxFrom l m j) default) = false := by
  induction m, j using minIdxFrom.induct l with
  | case1 m j hj ih =>
    intro hm
    rw [minIdxFrom, dif_pos hj]
    by_cases hlt : Passenger.lt (l.getD j default) (l.getD m default) = true
    · simp only [dif_pos hlt] at ih
      rw [if_pos hlt]
      obtain ⟨h1, h2, h3⟩ := ih hj
      refine ⟨h1, ?_, ?_⟩
      · rcases h2 with h2 | h2
        · exact Or.inr (by omega)
        · exact Or.inr (by omega)
      · intro k hk
        rcases hk with hk | hk
        · -- k = m: the old candidate lost to arr[j], which bounds the result
          subst hk
          cases hkm : Passenger.lt (l.getD k default)
              (l.getD (minIdxFrom l j (j+1)) default) with
          | false => rfl
          | true =>
            exfalso
            have hjres := h3 j (Or.inl rfl)
            have := Passenger.lt_trans' hlt hkm
            simp only [this] at hjres
            cases hjres
        · exact h3 k (by omega)
    · simp only [dif_neg hlt] at ih
      rw [if_neg hlt]
      obtain ⟨h1, h2, h3⟩ := ih hm
      refine ⟨h1, ?_, ?_⟩
      · rcases h2 with h2 | h2
        · exact Or.inl h2
        · exact Or.inr (by omega)
      · intro k hk
        rcases hk with hk | hk
        · exact h3 k (Or.inl hk)
        · rcases Nat.eq_or_lt_of_le hk.1 with hjk | hjk
          · -- k = j: arr[j] was not `<` the candidate, which bounds the result
            subst hjk
            rcases h2 with h2 | h2
            · rw [h2]
              simpa using hlt
            · cases hres : Passenger.lt (l.getD j default)
                  (l.getD (minIdxFrom l m (j+1)) default) with
              | false => rfl
              | true =>
                exfalso
                have hmres := h3 m (Or.inl rfl)
                exact hlt (Passenger.lt_of_lt_of_nlt hres hmres)
          · exact h3 k (Or.inr ⟨hjk, hk.2⟩)
  | case2 m j hj =>
    intro hm
    rw [minIdxFrom, dif_neg hj]
    refine ⟨hm, Or.inl rfl, ?_⟩
    intro k hk
    rcases hk with hk | hk
    · subst hk
      exact Passenger.lt_self _
    · omega

theorem getElem?_eq_some_getD {l : List Passenger} {m : Nat} (hm : m < l.length) :
    l[m]? = some (l.getD m default) := by
  rw [List.getElem?_eq_getElem hm, List.getD_eq_getElem?_getD, List.getElem?_eq_getElem hm]
  rfl

theorem getD_mem_drop (l : List Passenger) {i k : Nat} (hik : i ≤ k)
    (hk : k < l.length) : l.getD k default ∈ l.drop i := by
  rw [List.mem_iff_getElem]
  refine ⟨k - i, by simp [List.length_drop]; omega, ?_⟩
  rw [List.getElem_drop]
  have : i + (k - i) = k := by omega
  simp only [this]
  rw [List.getD_eq_getElem?_getD, List.getElem?_eq_getElem hk]
  rfl

theorem mem_drop_getD {l : List Passenger} {i : Nat} {b : Passenger}
    (hb : b ∈ l.drop i) : ∃ k, i ≤ k ∧ k < l.length ∧ l.getD k default = b := by
  rw [List.mem_iff_getElem] at hb
  obtain ⟨n, hn, he⟩ := hb
  have hlen : i + n < l.length := by
    have := List.length_drop i l ▸ hn
    omega
  refine ⟨i + n, by omega, hlen, ?_⟩
  rw [List.getD_eq_getElem?_getD, List.getElem?_eq_getElem hlen]
  rw [List.getElem_drop] at he
  exact he

theorem pairwise_of_short {α : Type} {R : α → α → Prop} (l : List α)
    (h : l.length ≤ 1) : l.Pairwise R := by
  match l with
  | [] => exact .nil
  | [a] => simp
  | a :: b :: t => simp at h

/-- The outer loop of `selectionSort` (lines 71-80), starting at position `i`:
find the index of the minimum of the suffix, swap it to position `i` (only
when the index moved, as the code does), continue with `i+1`. -/
def selSortAux (l : List Passenger) (i : Nat) : List Passenger :=
  if h : i + 1 < l.length then
    selSortAux
      (if minIdxFrom l i (i+1) ≠ i then swapL l i (minIdxFrom l i (i+1)) else l) (i+1)
  else l
termination_by l.length - i
decreasing_by
  split
  · rw [length_swapL]
    omega
  · omega

/-- `selectionSort` (main.cpp lines 69-81). -/
def selectionSort (l : List Passenger) : List Passenger := selSortAux l 0

theorem selStep_getElem? (l : List Passenger) {i m : Nat} (him : i ≤ m)
    (hm : m < l.length) (k : Nat) :
    (if m ≠ i then swapL l i m else l)[k]? =
      if k = m then l[i]? else if k = i then l[m]? else l[k]? := by
  by_cases hmi : m = i
  · subst hmi
    simp only [ne_eq, not_true_eq_false, if_false, ite_self]
    by_cases hk : k = m <;> simp [hk]
  · rw [if_pos (by omega)]
    exact getElem?_swapL l (by omega) hm k

theorem selSortAux_spec (l : List Passenger) (i : Nat) :
    (l.take i).Pairwise (fun a b => Passenger.lt b a = false) →
    (∀ a ∈ l.take i, ∀ b ∈ l.drop i, Passenger.lt b a = false) →
    List.Perm (selSortAux l i) l ∧
      (selSortAux l i).Pairwise (fun a b => Passenger.lt b a = false) := by
  induction l, i using selSortAux.induct with
  | case1 l i h ih =>
    intro hsort hcross
    rw [selSortAux, dif_pos h]
    obtain ⟨hmlt, hmge, hmin⟩ := minIdxFrom_spec l i (i+1) (by omega)
    set m := minIdxFrom l i (i+1) with hmdef
    have him : i ≤ m := by rcases hmge with h' | h' <;> omega
    set l' := if m ≠ i then swapL l i m else l with hl'
    have hlen' : l'.length = l.length := by
      rw [hl']; split <;> simp [length_swapL]
    have hget : ∀ k, l'[k]? = if k = m then l[i]? else if k = i then l[m]? else l[k]? :=
      selStep_getElem? l him hmlt
    have hperm' : List.Perm l' l := by
      rw [hl']; split
      · exact swapL_perm l him hmlt
      · exact List.Perm.refl l
    have htake : l'.take i = l.take i := by
      apply List.ext_getElem?
      intro n
      rw [List.getElem?_take, List.getElem?_take]
      by_cases hn : n < i
      · rw [if_pos hn, if_pos hn, hget, if_neg (by omega), if_neg (by omega)]
      · rw [if_neg hn, if_neg hn]
    have htake1 : l'.take (i+1) = l.take i ++ [l.getD m default] := by
      rw [List.take_succ, htake]
      congr 1
      by_cases him' : i = m
      · rw [hget, if_pos him', getElem?_eq_some_getD (by omega), him']
        rfl
      · rw [hget, if_neg him', if_pos rfl, getElem?_eq_some_getD hmlt]
        rfl
    have hsort' : (l'.take (i+1)).Pairwise (fun a b => Passenger.lt b a = false) := by
      rw [htake1, List.pairwise_append]
      refine ⟨hsort, by simp, ?_⟩
      intro a ha b hb
      simp only [List.mem_singleton] at hb
      subst hb
      exact hcross a ha _ (getD_mem_drop l him hmlt)
    have hcross' : ∀ a ∈ l'.take (i+1), ∀ b ∈ l'.drop (i+1),
        Passenger.lt b a = false := by
      intro a ha b hb
      obtain ⟨k, hk1, hk2, hk3⟩ := mem_drop_getD hb
      have hk2' : k < l.length := by rw [← hlen']; exact hk2
      have hbval : ∃ n, i ≤ n ∧ n < l.length ∧ l.getD n default = b := by
        by_cases hkm : k = m
        · refine ⟨i, le_refl i, by omega, ?_⟩
          have hg := hget k
          rw [if_pos hkm] at hg
          rw [← hk3, List.getD_eq_getElem?_getD l' k, hg, ← List.getD_eq_getElem?_getD]
        · refine ⟨k, by omega, hk2', ?_⟩
          have hg := hget k
          rw [if_neg hkm, if_neg (by omega)] at hg
          rw [← hk3, List.getD_eq_getElem?_getD l' k, hg, ← List.getD_eq_getElem?_getD]
      obtain ⟨n, hn1, hn2, hn3⟩ := hbval
      rw [htake1] at ha
      rcases List.mem_append.mp ha with ha | ha
      · exact hn3 ▸ hcross a ha _ (getD_mem_drop l hn1 hn2)
      · simp only [List.mem_singleton] at ha
        subst ha
        rw [← hn3]
        exact hmin n (by omega)
    obtain ⟨p1, p2⟩ := ih hsort' hcross'
    exact ⟨p1.trans hperm', p2⟩
  | case2 l i h =>
    intro hsort hcross
    rw [selSortAux, dif_neg h]
    refine ⟨List.Perm.refl l, ?_⟩
    have hshort : (l.drop i).length ≤ 1 := by
      rw [List.length_drop]
      omega
    rw [← List.take_append_drop i l, List.pairwise_append]
    exact ⟨hsort, pairwise_of_short _ hshort, hcross⟩

theorem selectionSort_spec (l : List Passenger) :
    List.Perm (selectionSort l) l ∧
      (selectionSort l).Pairwise (fun a b => Passenger.lt b a = false) := by
  exact selSortAux_spec l 0 (by simp) (by simp)

/-! ## Insertion sort (main.cpp lines 88-98) -/

/-- The shifting inner `while` of `insertionSort` (lines 92-95), expressed on
the reversed prefix: scanning the sorted prefix from its right end, elements
`> key` (via `operator>`) are shifted one slot right; `key` lands just after
the first element that is not `> key`. -/
def insRev (key : Passenger) : List Passenger → List Passenger
  | [] => [key]
  | a :: rs => if Passenger.gt a key then a :: insRev key rs else key :: a :: rs

/-- One iteration of the outer `for` (lines 90-96): insert `key = arr[i]`
into the sorted prefix `pre = arr[0..i-1]` by right-to-left shifting. -/
def insShift (key : Passenger) (pre : List Passenger) : List Passenger :=
  (insRev key pre.reverse).reverse

/-- The outer loop of `insertionSort`: `pre` is the already-sorted prefix
`arr[0..i-1]`, `rest` the still-unprocessed suffix from position `i` on. -/
def insSortGo (pre : List Passenger) : List Passenger → List Passenger
  | [] => pre
  | k :: rest => insSortGo (insShift k pre) rest

/-- `insertionSort` (main.cpp lines 88-98); the outer loop starts at `i = 1`,
so empty and singleton vectors are left untouched. -/
def insertionSort (l : List Passenger) : List Passenger :=
  match l with
  | [] => []
  | a :: rest => insSortGo [a] rest

theorem insRev_perm (key : Passenger) (rs : List Passenger) :
    List.Perm (insRev key rs) (key :: rs) := by
  induction rs with
  | nil => exact List.Perm.refl _
  | cons a rs ih =>
    rw [insRev]
    split
    · exact (ih.cons a).trans (List.Perm.swap _ _ _)
    · exact List.Perm.refl _

theorem insRev_pairwise (key : Passenger) (rs : List Passenger)
    (h : rs.Pairwise (fun a b => Passenger.lt a b = false)) :
    (insRev key rs).Pairwise (fun a b => Passenger.lt a b = false) := by
  induction rs with
  | nil => simp [insRev]
  | cons a rs ih =>
    rw [List.pairwise_cons] at h
    rw [insRev]
    split
    · rename_i hgt
      rw [List.pairwise_cons]
      refine ⟨?_, ih h.2⟩
      intro b hb
      rcases List.mem_cons.mp ((insRev_perm key rs).mem_iff.mp hb) with hb | hb
      · subst hb
        exact Passenger.lt_asymm' hgt
      · exact h.1 b hb
    · rename_i hgt
      rw [Bool.not_eq_true] at hgt
      rw [List.pairwise_cons]
      refine ⟨?_, List.pairwise_cons.mpr h⟩
      intro b hb
      rcases List.mem_cons.mp hb with hb | hb
      · subst hb
        exact hgt
      · exact Passenger.nlt_trans (h.1 b hb) hgt

theorem insShift_perm (key : Passenger) (pre : List Passenger) :
    List.Perm (insShift key pre) (key :: pre) := by
  unfold insShift
  exact (List.reverse_perm _).trans ((insRev_perm key pre.reverse).trans
    ((List.reverse_perm pre).cons key))

theorem insShift_pairwise (key : Passenger) (pre : List Passenger)
    (h : pre.Pairwise (fun a b => Passenger.lt b a = false)) :
    (insShift key pre).Pairwise (fun a b => Passenger.lt b a = false) := by
  unfold insShift
  rw [List.pairwise_reverse]
  exact insRev_pairwise key pre.reverse (List.pairwise_reverse.mpr h)

theorem insSortGo_spec (pre rest : List Passenger)
    (h : pre.Pairwise (fun a b => Passenger.lt b a = false)) :
    List.Perm (insSortGo pre rest) (pre ++ rest) ∧
      (insSortGo pre rest).Pairwise (fun a b => Passenger.lt b a = false) := by
  induction rest generalizing pre with
  | nil => simpa [insSortGo] using h
  | cons k rest ih =>
    rw [insSortGo]
    obtain ⟨p1, p2⟩ := ih (insShift k pre) (insShift_pairwise k pre h)
    refine ⟨?_, p2⟩
    refine p1.trans ?_
    refine (((insShift_perm k pre).append_right rest).trans ?_)
    exact (List.perm_middle).symm

theorem insertionSort_spec (l : List Passenger) :
    List.Perm (insertionSort l) l ∧
      (insertionSort l).Pairwise (fun a b => Passenger.lt b a = false) := by
  match l with
  | [] => exact ⟨List.Perm.refl _, List.Pairwise.nil⟩
  | a :: rest =>
    have := insSortGo_spec [a] rest (by simp)
    simpa [insertionSort] using this

/-! ## Reference sort (`std::sort`, main.cpp line 213) -/

/-- The comparison relation handed to the reference sort: the program's
`operator<`-induced "not greater" relation (`std::sort` with the default
`operator<` comparator orders by exactly this total preorder). -/
def stdLe (a b : Passenger) : Prop := Passenger.le a b = true

instance : DecidableRel stdLe := fun _ _ => inferInstanceAs (Decidable (_ = true))

instance : IsTotal Passenger stdLe := by
  constructor
  intro a b
  unfold stdLe Passenger.le
  cases h : Passenger.lt b a with
  | false => exact Or.inl (by simp [h])
  | true => exact Or.inr (by simp [Passenger.lt_asymm' h])

instance : IsTrans Passenger stdLe := by
  constructor
  intro a b c h1 h2
  unfold stdLe Passenger.le at h1 h2 ⊢
  simp only [Bool.not_eq_true'] at h1 h2 ⊢
  exact Passenger.nlt_trans h1 h2

/-- Modelled from the spec: `std::sort(stdSorted.begin(), stdSorted.end())`
(main.cpp line 213) — the standard library's general-purpose comparison
sort; its contract is "some permutation, sorted by `operator<`", which we
model by a concrete comparison sort over the same total order.  The C++
source of `std::sort` itself is not part of this repository. -/
def stdSort (l : List Passenger) : List Passenger :=
  List.insertionSort stdLe l

theorem stdSort_spec (l : List Passenger) :
    List.Perm (stdSort l) l ∧
      (stdSort l).Pairwise (fun a b => Passenger.lt b a = false) := by
  refine ⟨List.perm_insertionSort stdLe l, ?_⟩
  have h := List.sorted_insertionSort stdLe l
  refine h.imp ?_
  intro a b hab
  unfold stdLe Passenger.le at hab
  simpa using hab

/-! ## Quicksort (main.cpp lines 105-126)

`quickSortR` is modelled with an explicit fuel parameter bounding loop
iterations and recursion depth; `none` signals either an out-of-bounds
vector access (the code indexes without bounds checks) or fuel exhaustion.
The totality theorem shows the supplied fuel is never exhausted on
non-empty input, so `none` of `quickSortR` means exactly the out-of-bounds
access the C++ performs on an empty vector. -/

/-- The left scan `while (arr[i] < p) i++;` (line 109): advance `i` until the
element is not `< p`; indexing past the end is an out-of-bounds fault. -/
def scanL : Nat → List Passenger → Passenger → Nat → Option Nat
  | 0, _, _, _ => none
  | fuel+1, l, p, i =>
    match l[i]? with
    | none => none
    | some a => if Passenger.lt a p then scanL fuel l p (i+1) else some i

/-- The right scan `while (arr[j] > p) j--;` (line 110): retreat `j` (a
signed `long`) until the element is not `> p`; a negative index is an
out-of-bounds fault. -/
def scanR : Nat → List Passenger → Passenger → Int → Option Int
  | 0, _, _, _ => none
  | fuel+1, l, p, j =>
    if j < 0 then none
    else match l[j.toNat]? with
      | none => none
      | some a => if Passenger.gt a p then scanR fuel l p (j-1) else some j

/-- The `do { … } while (i <= j)` Hoare partition loop (lines 108-115):
scan from both ends, and when `i <= j` swap `arr[i]`/`arr[j]` and move both
pointers inward; the loop repeats while `i <= j` still holds.  Returns the
final array and pointer values. -/
def partitionLoop : Nat → List Passenger → Passenger → Nat → Int →
    Option (List Passenger × Nat × Int)
  | 0, _, _, _, _ => none
  | fuel+1, l, p, i, j =>
    match scanL (l.length + 1) l p i with
    | none => none
    | some i2 =>
      match scanR (l.length + 1) l p j with
      | none => none
      | some j2 =>
        if (i2 : Int) ≤ j2 then
          if (i2 : Int) + 1 ≤ j2 - 1 then
            partitionLoop fuel (swapL l i2 j2.toNat) p (i2+1) (j2-1)
          else some (swapL l i2 j2.toNat, i2 + 1, j2 - 1)
        else some (l, i2, j2)

/-- `std::copy(src.begin(), src.end(), dst.begin() + start)` (lines 119 and
124): overwrite `dst` from position `start` with the elements of `src`. -/
def copyInto (dst : List Passenger) (start : Nat) (src : List Passenger) :
    List Passenger :=
  dst.take start ++ src ++ dst.drop (start + src.length)

/-- `quickSortR` (lines 105-126): pivot `arr[arr.size() >> 1]`, Hoare
partition, then—when `j > 0`—recurse on a fresh copy of `arr[0..j]` and copy
the result back, and—when `i < arr.size()`—recurse on a fresh copy of
`arr[i..]` and copy the result back. -/
def quickSortRF : Nat → List Passenger → Option (List Passenger)
  | 0, _ => none
  | fuel+1, l =>
    match l[l.length / 2]? with    -- `arr[arr.size() >> 1]`
    | none => none
    | some p =>
      match partitionLoop (l.length + 1) l p 0 ((l.length : Int) - 1) with
      | none => none
      | some (l2, i, j) =>
        match (if 0 < j then
            match quickSortRF fuel (l2.take (j.toNat + 1)) with
            | none => none
            | some sl => some (copyInto l2 0 sl)
          else some l2) with
        | none => none
        | some l3 =>
          if i < l.length then
            match quickSortRF fuel (l3.drop i) with
            | none => none
            | some sr => some (copyInto l3 i sr)
          else some l3

/-- `quickSortR(arr)` with enough fuel for its recursion depth (each
recursive call operates on a strictly shorter vector, so depth is at most
the length). -/
def quickSortR (l : List Passenger) : Option (List Passenger) :=
  quickSortRF (l.length + 1) l

theorem scanL_spec (fuel : Nat) (l : List Passenger) (p : Passenger) :
    ∀ i k, i ≤ k → k < l.length → Passenger.lt (l.getD k default) p = false →
      k < i + fuel →
      ∃ i2, scanL fuel l p i = some i2 ∧ i ≤ i2 ∧ i2 ≤ k ∧ i2 < l.length ∧
        Passenger.lt (l.getD i2 default) p = false ∧
        ∀ m, i ≤ m → m < i2 → Passenger.lt (l.getD m default) p = true := by
  induction fuel with
  | zero => intro i k h1 _ _ h4; omega
  | succ fuel ih =>
    intro i k h1 h2 h3 h4
    have hi : i < l.length := by omega
    simp only [scanL, getElem?_eq_some_getD hi]
    cases hlt : Passenger.lt (l.getD i default) p with
    | false =>
      refine ⟨i, ?_, le_refl i, h1, hi, hlt, ?_⟩
      · rw [if_neg (by simp [hlt])]
      · intro m hm1 hm2
        omega
    | true =>
      rw [if_pos rfl]
      have hik : i ≠ k := by
        intro he
        rw [he] at hlt
        rw [h3] at hlt
        exact Bool.noConfusion hlt
      obtain ⟨i2, he, hp1, hp2, hp3, hp4, hp5⟩ :=
        ih (i+1) k (by omega) h2 h3 (by omega)
      refine ⟨i2, he, by omega, hp2, hp3, hp4, ?_⟩
      intro m hm1 hm2
      rcases Nat.eq_or_lt_of_le hm1 with hm | hm
      · rw [← hm]
        exact hlt
      · exact hp5 m (by omega) hm2

theorem scanR_spec (fuel : Nat) (l : List Passenger) (p : Passenger) :
    ∀ (j : Int) (k : Nat), (k : Int) ≤ j → j ≤ (l.length : Int) - 1 →
      Passenger.lt p (l.getD k default) = false →
      j < (k : Int) + fuel →
      ∃ j2 : Int, scanR fuel l p j = some j2 ∧ (k : Int) ≤ j2 ∧ j2 ≤ j ∧
        0 ≤ j2 ∧ Passenger.lt p (l.getD j2.toNat default) = false ∧
        ∀ m : Nat, j2 < (m : Int) → (m : Int) ≤ j →
          Passenger.lt p (l.getD m default) = true := by
  induction fuel with
  | zero => intro j k h1 _ _ h4; omega
  | succ fuel ih =>
    intro j k h1 h2 h3 h4
    have hj0 : ¬ j < 0 := by omega
    have hjn : j.toNat < l.length := by omega
    simp only [scanR, if_neg hj0, getElem?_eq_some_getD hjn]
    cases hgt : Passenger.gt (l.getD j.toNat default) p with
    | false =>
      have hval : Passenger.lt p (l.getD j.toNat default) = false := hgt
      refine ⟨j, ?_, h1, le_refl j, by omega, hval, ?_⟩
      · rw [if_neg (by simp [hgt])]
      · intro m hm1 hm2
        omega
    | true =>
      have hval : Passenger.lt p (l.getD j.toNat default) = true := hgt
      rw [if_pos rfl]
      have hjk : (j : Int) ≠ (k : Int) := by
        intro he
        have : j.toNat = k := by omega
        rw [this] at hval
        rw [h3] at hval
        exact Bool.noConfusion hval
      obtain ⟨j2, he, hp1, hp2, hp3, hp4, hp5⟩ :=
        ih (j-1) k (by omega) (by omega) h3 (by omega)
      refine ⟨j2, he, hp1, by omega, hp3, hp4, ?_⟩
      intro m hm1 hm2
      rcases eq_or_lt_of_le hm2 with hm | hm
      · have : m = j.toNat := by omega
        rw [this]
        exact hval
      · exact hp5 m hm1 (by omega)

theorem getD_swapL (l : List Passenger) {i j : Nat} (hi : i < l.length)
    (hj : j < l.length) (k : Nat) :
    (swapL l i j).getD k default = if k = j then l.getD i default
      else if k = i then l.getD j default else l.getD k default := by
  rw [List.getD_eq_getElem?_getD, getElem?_swapL l hi hj k]
  by_cases h1 : k = j
  · rw [if_pos h1, if_pos h1, getElem?_eq_some_getD hi]
    rfl
  · rw [if_neg h1, if_neg h1]
    by_cases h2 : k = i
    · rw [if_pos h2, if_pos h2, getElem?_eq_some_getD hj]
      rfl
    · rw [if_neg h2, if_neg h2, ← List.getD_eq_getElem?_getD]

/-- After a partition swap the prefix `[0, i2]` of the swapped array is
entirely `<= p`. -/
theorem swap_inv3 (l : List Passenger) (p : Passenger) (i i2 jn : Nat)
    (hi2 : i2 < l.length) (hjn : jn < l.length) (hij : i2 ≤ jn)
    (hRval : Passenger.lt p (l.getD jn default) = false)
    (hminL : ∀ m, i ≤ m → m < i2 → Passenger.lt (l.getD m default) p = true)
    (hI3 : ∀ k, k < i → Passenger.lt p (l.getD k default) = false) :
    ∀ k, k < i2 + 1 → Passenger.lt p ((swapL l i2 jn).getD k default) = false := by
  intro k hk
  rw [getD_swapL l hi2 hjn k]
  by_cases h1 : k = jn
  · rw [if_pos h1]
    rw [show i2 = jn by omega]
    exact hRval
  · rw [if_neg h1]
    by_cases h2 : k = i2
    · rw [if_pos h2]
      exact hRval
    · rw [if_neg h2]
      by_cases h3 : k < i
      · exact hI3 k h3
      · exact Passenger.lt_asymm' (hminL k (by omega) (by omega))

/-- After a partition swap the suffix `[j2, …)` of the swapped array is
entirely `>= p`. -/
theorem swap_inv4 (l : List Passenger) (p : Passenger) (i2 jn : Nat)
    (j j2 : Int) (hi2 : i2 < l.length) (hjn : jn < l.length) (hij : i2 ≤ jn)
    (hjeq : (jn : Int) = j2)
    (hLval : Passenger.lt (l.getD i2 default) p = false)
    (hminR : ∀ m : Nat, j2 < (m : Int) → (m : Int) ≤ j →
      Passenger.lt p (l.getD m default) = true)
    (hI4 : ∀ k : Nat, j < (k : Int) → k < l.length →
      Passenger.lt (l.getD k default) p = false) :
    ∀ k : Nat, j2 - 1 < (k : Int) → k < l.length →
      Passenger.lt ((swapL l i2 jn).getD k default) p = false := by
  intro k hk1 hk2
  rw [getD_swapL l hi2 hjn k]
  by_cases h1 : k = jn
  · rw [if_pos h1]
    exact hLval
  · rw [if_neg h1]
    have hkgt : j2 < (k : Int) := by omega
    by_cases h2 : k = i2
    · exact absurd h2 (by omega)
    · rw [if_neg h2]
      by_cases h3 : (k : Int) ≤ j
      · exact Passenger.lt_asymm' (hminR k hkgt h3)
      · exact hI4 k (by omega) hk2

theorem partitionLoop_spec (fuel : Nat) :
    ∀ (l : List Passenger) (p : Passenger) (i : Nat) (j : Int),
      (∃ k, i ≤ k ∧ k < l.length ∧ Passenger.lt (l.getD k default) p = false) →
      (∃ k : Nat, (k : Int) ≤ j ∧ Passenger.lt p (l.getD k default) = false) →
      (∀ k, k < i → Passenger.lt p (l.getD k default) = false) →
      (∀ k : Nat, j < (k : Int) → k < l.length →
        Passenger.lt (l.getD k default) p = false) →
      j ≤ (l.length : Int) - 1 →
      (j + 1 - (i : Int)).toNat < fuel →
      ∃ lf fi fj, partitionLoop fuel l p i j = some (lf, fi, fj) ∧
        List.Perm lf l ∧ lf.length = l.length ∧
        fj < (fi : Int) ∧ i ≤ fi ∧ fj ≤ j ∧ fi ≤ l.length ∧ -1 ≤ fj ∧
        (∀ k, k < fi → Passenger.lt p (lf.getD k default) = false) ∧
        (∀ k : Nat, fj < (k : Int) → k < l.length →
          Passenger.lt (lf.getD k default) p = false) := by
  induction fuel with
  | zero =>
    intro l p i j _ _ _ _ _ hfuel
    omega
  | succ fuel ih =>
    intro l p i j hI1 hI2 hI3 hI4 hI5 hfuel
    obtain ⟨kL, hkL1, hkL2, hkL3⟩ := hI1
    obtain ⟨kR, hkR1, hkR3⟩ := hI2
    have hkR2 : kR < l.length := by omega
    obtain ⟨i2, hsl, hi2a, hi2b, hi2c, hi2d, hi2min⟩ :=
      scanL_spec (l.length + 1) l p i kL hkL1 hkL2 hkL3 (by omega)
    obtain ⟨j2, hsr, hj2a, hj2b, hj2c, hj2d, hj2min⟩ :=
      scanR_spec (l.length + 1) l p j kR hkR1 hI5 hkR3 (by omega)
    have hj2n : j2.toNat < l.length := by omega
    simp only [partitionLoop, hsl, hsr]
    by_cases hcmp : (i2 : Int) ≤ j2
    · rw [if_pos hcmp]
      have hij2 : i2 ≤ j2.toNat := by omega
      have hjeq : (j2.toNat : Int) = j2 := by omega
      have nI3 := swap_inv3 l p i i2 j2.toNat hi2c hj2n hij2 hj2d hi2min hI3
      have nI4 := swap_inv4 l p i2 j2.toNat j j2 hi2c hj2n hij2 hjeq hi2d hj2min hI4
      have hperm2 : List.Perm (swapL l i2 j2.toNat) l := swapL_perm l hij2 hj2n
      have hlen2 : (swapL l i2 j2.toNat).length = l.length := length_swapL l i2 j2.toNat
      by_cases hcont : (i2 : Int) + 1 ≤ j2 - 1
      · rw [if_pos hcont]
        have hgd := getD_swapL l hi2c hj2n
        have nI1 : ∃ k, i2 + 1 ≤ k ∧ k < (swapL l i2 j2.toNat).length ∧
            Passenger.lt ((swapL l i2 j2.toNat).getD k default) p = false := by
          refine ⟨j2.toNat, by omega, by rw [hlen2]; omega, ?_⟩
          rw [hgd j2.toNat, if_pos rfl]
          exact hi2d
        have nI2 : ∃ k : Nat, (k : Int) ≤ j2 - 1 ∧
            Passenger.lt p ((swapL l i2 j2.toNat).getD k default) = false := by
          refine ⟨i2, by omega, ?_⟩
          rw [hgd i2, if_neg (by omega), if_pos rfl]
          exact hj2d
        obtain ⟨lf, fi, fj, heq, c1, c2, c3, c4, c5, c6, c7, c8, c9⟩ :=
          ih (swapL l i2 j2.toNat) p (i2+1) (j2-1) nI1 nI2 nI3
            (fun k hk1 hk2 => nI4 k hk1 (by rw [hlen2] at hk2; exact hk2))
            (by rw [hlen2]; omega) (by omega)
        refine ⟨lf, fi, fj, heq, c1.trans hperm2, by rw [c2, hlen2], c3,
          by omega, by omega, by rw [hlen2] at c6; exact c6, c7, c8,
          fun k hk1 hk2 => c9 k hk1 (by rw [hlen2]; exact hk2)⟩
      · rw [if_neg hcont]
        refine ⟨swapL l i2 j2.toNat, i2 + 1, j2 - 1, rfl, hperm2, hlen2,
          by omega, by omega, by omega, by omega, by omega, nI3, nI4⟩
    · rw [if_neg hcmp]
      refine ⟨l, i2, j2, rfl, List.Perm.refl l, rfl, by omega, hi2a, hj2b,
        by omega, by omega, ?_, ?_⟩
      · intro k hk
        by_cases h1 : k < i
        · exact hI3 k h1
        · exact Passenger.lt_asymm' (hi2min k (by omega) hk)
      · intro k hk1 hk2
        by_cases h1 : (k : Int) ≤ j
        · exact Passenger.lt_asymm' (hj2min k hk1 h1)
        · exact hI4 k (by omega) hk2

/-- The full partition call of `quickSortR` (pivot at `size >> 1`, pointers
`0` and `size - 1`): it succeeds, permutes the vector, ends with `j < i`,
and — because the first loop iteration always reaches `i <= j` at or before
the pivot position and swaps — ends with `i ≥ 1` and `j ≤ size - 2`, so both
recursive sub-vectors are strictly shorter. -/
theorem partitionStart (l : List Passenger) (p : Passenger) (hne : 1 ≤ l.length)
    (hp : p = l.getD (l.length / 2) default) :
    ∃ lf fi fj,
      partitionLoop (l.length + 1) l p 0 ((l.length : Int) - 1) = some (lf, fi, fj) ∧
      List.Perm lf l ∧ lf.length = l.length ∧
      fj < (fi : Int) ∧ 1 ≤ fi ∧ fi ≤ l.length ∧ -1 ≤ fj ∧
      fj ≤ (l.length : Int) - 2 ∧
      (∀ k, k < fi → Passenger.lt p (lf.getD k default) = false) ∧
      (∀ k : Nat, fj < (k : Int) → k < l.length →
        Passenger.lt (lf.getD k default) p = false) := by
  have hmid : l.length / 2 < l.length := by omega
  have hstopL : Passenger.lt (l.getD (l.length / 2) default) p = false := by
    rw [hp]
    exact Passenger.lt_self _
  have hstopR : Passenger.lt p (l.getD (l.length / 2) default) = false := by
    rw [hp]
    exact Passenger.lt_self _
  obtain ⟨i2, hsl, hi2a, hi2b, hi2c, hi2d, hi2min⟩ :=
    scanL_spec (l.length + 1) l p 0 (l.length / 2) (Nat.zero_le _) hmid hstopL
      (by omega)
  obtain ⟨j2, hsr, hj2a, hj2b, hj2c, hj2d, hj2min⟩ :=
    scanR_spec (l.length + 1) l p ((l.length : Int) - 1) (l.length / 2)
      (by omega) (le_refl _) hstopR (by omega)
  have hj2n : j2.toNat < l.length := by omega
  have hlp : l.length + 1 = (l.length) + 1 := rfl
  simp only [partitionLoop, hsl, hsr]
  have hcmp : (i2 : Int) ≤ j2 := by omega
  rw [if_pos hcmp]
  have hij2 : i2 ≤ j2.toNat := by omega
  have hjeq : (j2.toNat : Int) = j2 := by omega
  have hI3 : ∀ k, k < 0 → Passenger.lt p (l.getD k default) = false := by omega
  have hI4 : ∀ k : Nat, (l.length : Int) - 1 < (k : Int) → k < l.length →
      Passenger.lt (l.getD k default) p = false := by
    intro k hk1 hk2
    omega
  have nI3 := swap_inv3 l p 0 i2 j2.toNat hi2c hj2n hij2 hj2d hi2min hI3
  have nI4 := swap_inv4 l p i2 j2.toNat ((l.length : Int) - 1) j2 hi2c hj2n hij2
    hjeq hi2d hj2min hI4
  have hperm2 : List.Perm (swapL l i2 j2.toNat) l := swapL_perm l hij2 hj2n
  have hlen2 : (swapL l i2 j2.toNat).length = l.length := length_swapL l i2 j2.toNat
  by_cases hcont : (i2 : Int) + 1 ≤ j2 - 1
  · rw [if_pos hcont]
    have hgd := getD_swapL l hi2c hj2n
    have nI1 : ∃ k, i2 + 1 ≤ k ∧ k < (swapL l i2 j2.toNat).length ∧
        Passenger.lt ((swapL l i2 j2.toNat).getD k default) p = false := by
      refine ⟨j2.toNat, by omega, by rw [hlen2]; omega, ?_⟩
      rw [hgd j2.toNat, if_pos rfl]
      exact hi2d
    have nI2 : ∃ k : Nat, (k : Int) ≤ j2 - 1 ∧
        Passenger.lt p ((swapL l i2 j2.toNat).getD k default) = false := by
      refine ⟨i2, by omega, ?_⟩
      rw [hgd i2, if_neg (by omega), if_pos rfl]
      exact hj2d
    obtain ⟨lf, fi, fj, heq, c1, c2, c3, c4, c5, c6, c7, c8, c9⟩ :=
      partitionLoop_spec l.length (swapL l i2 j2.toNat) p (i2+1) (j2-1) nI1 nI2 nI3
        (fun k hk1 hk2 => nI4 k hk1 (by rw [hlen2] at hk2; exact hk2))
        (by rw [hlen2]; omega) (by omega)
    refine ⟨lf, fi, fj, heq, c1.trans hperm2, by rw [c2, hlen2], c3,
      by omega, by rw [hlen2] at c6; exact c6, by omega, by omega, c8,
      fun k hk1 hk2 => c9 k hk1 (by rw [hlen2]; exact hk2)⟩
  · rw [if_neg hcont]
    exact ⟨swapL l i2 j2.toNat, i2 + 1, j2 - 1, rfl, hperm2, hlen2,
      by omega, by omega, by omega, by omega, by omega, nI3, nI4⟩

/-! Positional `getD` toolkit used by the quicksort correctness proof. -/

theorem getD_eq_getElem' {l : List Passenger} {k : Nat} (h : k < l.length) :
    l.getD k default = l[k] := by
  rw [List.getD_eq_getElem?_getD, List.getElem?_eq_getElem h]
  rfl

theorem getD_take {l : List Passenger} {n k : Nat} (h : k < n) :
    (l.take n).getD k default = l.getD k default := by
  by_cases hk : k < l.length
  · have hk' : k < (l.take n).length := by simp [List.length_take]; omega
    rw [getD_eq_getElem' hk', getD_eq_getElem' hk, List.getElem_take]
  · have h1 : (l.take n).length ≤ k := by simp [List.length_take]; omega
    have h2 : l.length ≤ k := by omega
    rw [List.getD_eq_getElem?_getD, List.getElem?_eq_none h1,
      List.getD_eq_getElem?_getD, List.getElem?_eq_none h2]

theorem getD_drop (l : List Passenger) (n k : Nat) :
    (l.drop n).getD k default = l.getD (n + k) default := by
  by_cases hk : n + k < l.length
  · have hk' : k < (l.drop n).length := by simp [List.length_drop]; omega
    rw [getD_eq_getElem' hk', getD_eq_getElem' hk, List.getElem_drop]
  · have h1 : (l.drop n).length ≤ k := by simp [List.length_drop]; omega
    have h2 : l.length ≤ n + k := by omega
    rw [List.getD_eq_getElem?_getD, List.getElem?_eq_none h1,
      List.getD_eq_getElem?_getD, List.getElem?_eq_none h2]

theorem getD_append_left {xs ys : List Passenger} {k : Nat} (h : k < xs.length) :
    (xs ++ ys).getD k default = xs.getD k default := by
  have h' : k < (xs ++ ys).length := by simp; omega
  rw [getD_eq_getElem' h', getD_eq_getElem' h, List.getElem_append_left h]

theorem getD_append_right {xs ys : List Passenger} {k : Nat} (h : xs.length ≤ k) :
    (xs ++ ys).getD k default = ys.getD (k - xs.length) default := by
  by_cases hk : k < (xs ++ ys).length
  · have h2 : k - xs.length < ys.length := by simp at hk; omega
    rw [getD_eq_getElem' hk, getD_eq_getElem' h2, List.getElem_append_right h]
  · have h1 : (xs ++ ys).length ≤ k := by omega
    have h2 : ys.length ≤ k - xs.length := by simp at h1; omega
    rw [List.getD_eq_getElem?_getD, List.getElem?_eq_none h1,
      List.getD_eq_getElem?_getD, List.getElem?_eq_none h2]

theorem getD_mem {l : List Passenger} {k : Nat} (h : k < l.length) :
    l.getD k default ∈ l := by
  rw [getD_eq_getElem' h]
  exact List.getElem_mem h

theorem mem_take_getD {l : List Passenger} {n : Nat} {a : Passenger}
    (ha : a ∈ l.take n) : ∃ k, k < n ∧ k < l.length ∧ l.getD k default = a := by
  rw [List.mem_iff_getElem] at ha
  obtain ⟨k, hk, he⟩ := ha
  have h1 : k < n ∧ k < l.length := by
    rw [List.length_take] at hk
    omega
  refine ⟨k, h1.1, h1.2, ?_⟩
  rw [getD_eq_getElem' h1.2, ← List.getElem_take (h := hk)]
  exact he

theorem pairwise_of_getD {xs : List Passenger}
    (h : ∀ k1 k2, k1 < k2 → k2 < xs.length →
      Passenger.lt (xs.getD k2 default) (xs.getD k1 default) = false) :
    xs.Pairwise (fun a b => Passenger.lt b a = false) := by
  rw [List.pairwise_iff_getElem]
  intro a b ha hb hab
  have hh := h a b hab hb
  rw [getD_eq_getElem' hb, getD_eq_getElem' ha] at hh
  exact hh

theorem getD_pairwise {xs : List Passenger}
    (h : xs.Pairwise (fun a b => Passenger.lt b a = false)) :
    ∀ k1 k2, k1 < k2 → k2 < xs.length →
      Passenger.lt (xs.getD k2 default) (xs.getD k1 default) = false := by
  intro k1 k2 h12 h2
  have h1 : k1 < xs.length := by omega
  rw [getD_eq_getElem' h2, getD_eq_getElem' h1]
  exact List.pairwise_iff_getElem.mp h k1 k2 h1 h2 h12

/-- After the left half is handled, the right-recursion step of `quickSortR`
(lines 121-125) yields a sorted permutation, given that the current buffer
`l3` has a sorted, `<= p` prefix `[0, i)` and a `>= p` suffix `[i, …)`. -/
theorem quickRight_spec (fuel : Nat)
    (ih : ∀ m : List Passenger, m.length < fuel → 1 ≤ m.length →
      ∃ r, quickSortRF fuel m = some r ∧ List.Perm r m ∧
        r.Pairwise (fun a b => Passenger.lt b a = false))
    (l l3 : List Passenger) (p : Passenger) (i : Nat)
    (hlen3 : l3.length = l.length) (hperm3 : List.Perm l3 l)
    (hi1 : 1 ≤ i) (hin : i ≤ l.length)
    (F3 : ∀ k, k < i → Passenger.lt p (l3.getD k default) = false)
    (F4 : ∀ k1 k2, k1 < k2 → k2 < i →
      Passenger.lt (l3.getD k2 default) (l3.getD k1 default) = false)
    (F5 : ∀ k, i ≤ k → k < l.length → Passenger.lt (l3.getD k default) p = false)
    (hfuel : l.length ≤ fuel) :
    ∃ r, (if i < l.length then
        match quickSortRF fuel (l3.drop i) with
        | none => none
        | some sr => some (copyInto l3 i sr)
      else some l3) = some r ∧ List.Perm r l ∧
      r.Pairwise (fun a b => Passenger.lt b a = false) := by
  by_cases hi : i < l.length
  · rw [if_pos hi]
    have hrlen : (l3.drop i).length = l.length - i := by
      simp [List.length_drop, hlen3]
    obtain ⟨sr, heqR, hpermR, hsortR⟩ := ih (l3.drop i) (by omega) (by omega)
    simp only [heqR]
    have hsrlen : sr.length = l.length - i := by rw [hpermR.length_eq, hrlen]
    have hl4 : copyInto l3 i sr = l3.take i ++ sr := by
      unfold copyInto
      have he : i + sr.length = l3.length := by omega
      rw [he, List.drop_length, List.append_nil]
    have htl : (l3.take i).length = i := by
      simp [List.length_take]
      omega
    have hsr_ge : ∀ a ∈ sr, Passenger.lt a p = false := by
      intro a ha
      obtain ⟨m, hm1, hm2, hm3⟩ := mem_drop_getD (hpermR.mem_iff.mp ha)
      rw [← hm3]
      exact F5 m hm1 (by omega)
    refine ⟨copyInto l3 i sr, rfl, ?_, ?_⟩
    · rw [hl4]
      exact ((hpermR.append_left (l3.take i)).trans
        (by rw [List.take_append_drop])).trans hperm3
    · rw [hl4]
      apply pairwise_of_getD
      intro k1 k2 h12 h2
      have hlen4 : (l3.take i ++ sr).length = l.length := by
        simp [htl]
        omega
      rw [hlen4] at h2
      by_cases hk2 : k2 < i
      · rw [getD_append_left (by omega), getD_append_left (by omega),
          getD_take hk2, getD_take (by omega)]
        exact F4 k1 k2 h12 hk2
      · rw [getD_append_right (by rw [htl]; omega), htl]
        by_cases hk1 : k1 < i
        · rw [getD_append_left (by omega), getD_take hk1]
          exact Passenger.nlt_trans (F3 k1 hk1)
            (hsr_ge _ (getD_mem (by omega)))
        · rw [getD_append_right (by rw [htl]; omega), htl]
          exact getD_pairwise hsortR (k1 - i) (k2 - i) (by omega) (by omega)
  · rw [if_neg hi]
    refine ⟨l3, rfl, hperm3, ?_⟩
    apply pairwise_of_getD
    intro k1 k2 h12 h2
    exact F4 k1 k2 h12 (by omega)

/-- `quickSortRF` with fuel exceeding the length succeeds on every non-empty
vector and returns a sorted permutation. -/
theorem quickSortRF_spec (fuel : Nat) :
    ∀ l : List Passenger, l.length < fuel → 1 ≤ l.length →
      ∃ r, quickSortRF fuel l = some r ∧ List.Perm r l ∧
        r.Pairwise (fun a b => Passenger.lt b a = false) := by
  induction fuel with
  | zero =>
    intro l hfuel hne
    omega
  | succ fuel ih =>
    intro l hfuel hne
    have hmid : l.length / 2 < l.length := by omega
    obtain ⟨l2, i, j, heqP, hperm2, hlen2, hji, hi1, hin, hjm1, hjn2, hpre, hsuf⟩ :=
      partitionStart l (l.getD (l.length / 2) default) hne rfl
    simp only [quickSortRF, getElem?_eq_some_getD hmid, heqP]
    by_cases hj0 : 0 < j
    · rw [if_pos hj0]
      have hji' : j.toNat + 1 ≤ i := by omega
      have hlt : (l2.take (j.toNat + 1)).length = j.toNat + 1 := by
        simp [List.length_take, hlen2]
        omega
      obtain ⟨sl, heqL, hpermL, hsortL⟩ := ih (l2.take (j.toNat + 1))
        (by rw [hlt]; omega) (by rw [hlt]; omega)
      simp only [heqL]
      have hsllen : sl.length = j.toNat + 1 := by rw [hpermL.length_eq, hlt]
      have hl3 : copyInto l2 0 sl = sl ++ l2.drop (j.toNat + 1) := by
        unfold copyInto
        rw [hsllen]
        simp
      have hlen3 : (copyInto l2 0 sl).length = l.length := by
        rw [hl3]
        simp [hsllen, List.length_drop, hlen2]
        omega
      have hperm3 : List.Perm (copyInto l2 0 sl) l := by
        rw [hl3]
        exact ((hpermL.append_right _).trans
          (by rw [List.take_append_drop])).trans hperm2
      have hsl_le : ∀ a ∈ sl,
          Passenger.lt (l.getD (l.length / 2) default) a = false := by
        intro a ha
        obtain ⟨k, hk1, hk2, hk3⟩ := mem_take_getD (hpermL.mem_iff.mp ha)
        rw [← hk3]
        exact hpre k (by omega)
      have hget3a : ∀ k, k ≤ j.toNat →
          (copyInto l2 0 sl).getD k default = sl.getD k default := by
        intro k hk
        rw [hl3]
        exact getD_append_left (by rw [hsllen]; omega)
      have hget3b : ∀ k, j.toNat + 1 ≤ k →
          (copyInto l2 0 sl).getD k default = l2.getD k default := by
        intro k hk
        rw [hl3, getD_append_right (by rw [hsllen]; omega), hsllen, getD_drop,
          show j.toNat + 1 + (k - (j.toNat + 1)) = k from by omega]
      have F3 : ∀ k, k < i →
          Passenger.lt (l.getD (l.length / 2) default)
            ((copyInto l2 0 sl).getD k default) = false := by
        intro k hk
        by_cases hkj : k ≤ j.toNat
        · rw [hget3a k hkj]
          exact hsl_le _ (getD_mem (by rw [hsllen]; omega))
        · rw [hget3b k (by omega)]
          exact hpre k hk
      have F4 : ∀ k1 k2, k1 < k2 → k2 < i →
          Passenger.lt ((copyInto l2 0 sl).getD k2 default)
            ((copyInto l2 0 sl).getD k1 default) = false := by
        intro k1 k2 h12 h2
        by_cases hk2 : k2 ≤ j.toNat
        · rw [hget3a k1 (by omega), hget3a k2 hk2]
          exact getD_pairwise hsortL k1 k2 h12 (by rw [hsllen]; omega)
        · rw [hget3b k2 (by omega)]
          have hb : Passenger.lt (l2.getD k2 default)
              (l.getD (l.length / 2) default) = false :=
            hsuf k2 (by omega) (by omega)
          by_cases hk1 : k1 ≤ j.toNat
          · rw [hget3a k1 hk1]
            exact Passenger.nlt_trans
              (hsl_le _ (getD_mem (by rw [hsllen]; omega))) hb
          · rw [hget3b k1 (by omega)]
            exact Passenger.nlt_trans (hpre k1 (by omega)) hb
      have F5 : ∀ k, i ≤ k → k < l.length →
          Passenger.lt ((copyInto l2 0 sl).getD k default)
            (l.getD (l.length / 2) default) = false := by
        intro k hk1 hk2
        rw [hget3b k (by omega)]
        exact hsuf k (by omega) hk2
      exact quickRight_spec fuel ih l (copyInto l2 0 sl)
        (l.getD (l.length / 2) default) i hlen3 hperm3 hi1 hin F3 F4 F5 (by omega)
    · rw [if_neg hj0]
      have F3 : ∀ k, k < i →
          Passenger.lt (l.getD (l.length / 2) default)
            (l2.getD k default) = false := hpre
      have F4 : ∀ k1 k2, k1 < k2 → k2 < i →
          Passenger.lt (l2.getD k2 default) (l2.getD k1 default) = false := by
        intro k1 k2 h12 h2
        exact Passenger.nlt_trans (hpre k1 (by omega))
          (hsuf k2 (by omega) (by omega))
      have F5 : ∀ k, i ≤ k → k < l.length →
          Passenger.lt (l2.getD k default)
            (l.getD (l.length / 2) default) = false := by
        intro k hk1 hk2
        exact hsuf k (by omega) hk2
      exact quickRight_spec fuel ih l l2
        (l.getD (l.length / 2) default) i hlen2 hperm2 hi1 hin F3 F4 F5 (by omega)

/-- Totality and correctness of `quickSortR` on non-empty vectors. -/
theorem quickSortR_spec (l : List Passenger) (hne : l ≠ []) :
    ∃ r, quickSortR l = some r ∧ List.Perm r l ∧
      r.Pairwise (fun a b => Passenger.lt b a = false) := by
  have h1 : 1 ≤ l.length := by
    cases l with
    | nil => exact absurd rfl hne
    | cons a t => simp
  exact quickSortRF_spec (l.length + 1) l (by omega) h1

/-! ## CSV loading and saving (main.cpp lines 134-171)

File contents are modelled as `List Char` (the character sequence of the
file); `std::string` fields stay `String` (a wrapper around `List Char`). -/

theorem length_dropWhile_le' (p : Char → Bool) (l : List Char) :
    (l.dropWhile p).length ≤ l.length := by
  induction l with
  | nil => simp
  | cons a t ih =>
    rw [List.dropWhile_cons]
    split
    · simp
      omega
    · simp

/-- Fuel-bounded core of `getlines`; the wrapper always supplies enough
fuel, and fuel keeps the recursion structural. -/
def getlinesF : Nat → List Char → List (List Char)
  | 0, _ => []
  | _+1, [] => []
  | fuel+1, c :: cs =>
    (c :: cs).takeWhile (· ≠ '\n') ::
      getlinesF fuel (((c :: cs).dropWhile (· ≠ '\n')).drop 1)

/-- The `while (std::getline(file, line))` row loop (lines 139-140): split on
`'\n'`; a final line without a trailing newline is still produced, a trailing
newline does not produce an extra empty line, the empty file yields no
lines. -/
def getlines (cs : List Char) : List (List Char) := getlinesF (cs.length + 1) cs

theorem getlinesF_congr : ∀ (f1 f2 : Nat) (cs : List Char), cs.length < f1 →
    cs.length < f2 → getlinesF f1 cs = getlinesF f2 cs := by
  intro f1
  induction f1 with
  | zero =>
    intro f2 cs h1 h2
    omega
  | succ f1 ih =>
    intro f2 cs h1 h2
    cases cs with
    | nil =>
      cases f2 with
      | zero => omega
      | succ f2 => rfl
    | cons c cs =>
      cases f2 with
      | zero => omega
      | succ f2 =>
        rw [getlinesF, getlinesF]
        congr 1
        have hlen := length_dropWhile_le' (fun x => decide (x ≠ '\n')) (c :: cs)
        apply ih
        · rw [List.length_drop]
          simp only [List.length_cons] at hlen h1 ⊢
          omega
        · rw [List.length_drop]
          simp only [List.length_cons] at hlen h2 ⊢
          omega

/-- Fuel-bounded core of `splitD`; the wrapper always supplies enough
fuel. -/
def splitDF : Nat → Char → List Char → List (List Char)
  | 0, _, _ => []
  | fuel+1, c, cs =>
    match cs.dropWhile (· ≠ c) with
    | [] => [cs.takeWhile (· ≠ c)]
    | _ :: rest => cs.takeWhile (· ≠ c) :: splitDF fuel c rest

/-- `std::getline(ss, field, ',')` splitting (lines 143-146): split the row
on `','`; the empty row yields one empty field. -/
def splitD (c : Char) (cs : List Char) : List (List Char) :=
  splitDF (cs.length + 1) c cs

theorem splitDF_congr : ∀ (f1 f2 : Nat) (c : Char) (cs : List Char),
    cs.length < f1 → cs.length < f2 → splitDF f1 c cs = splitDF f2 c cs := by
  intro f1
  induction f1 with
  | zero =>
    intro f2 c cs h1 h2
    omega
  | succ f1 ih =>
    intro f2 c cs h1 h2
    cases f2 with
    | zero => omega
    | succ f2 =>
      rw [splitDF, splitDF]
      cases hdrop : cs.dropWhile (fun x => decide (x ≠ c)) with
      | nil => simp only [hdrop]
      | cons d rest =>
        simp only [hdrop]
        congr 1
        have hlen := length_dropWhile_le' (fun x => decide (x ≠ c)) cs
        rw [hdrop] at hlen
        simp only [List.length_cons] at hlen
        exact ih f2 c rest (by omega) (by omega)

/-- Field `k` of a row: the `k`-th `getline(ss, …, ',')` result; when the
row has too few separators the corresponding `getline` call fails and leaves
the field empty, as in C++. -/
def fieldAt (row : List Char) (k : Nat) : List Char :=
  (splitD ',' row).getD k []

/-- The whitespace set skipped by `std::stoi` (via `std::isspace`). -/
def isSpaceCpp (ch : Char) : Bool :=
  ch = ' ' || ch = '\t' || ch = '\n' || ch = '\x0b' || ch = '\x0c' || ch = '\r'

def isDigitCpp (ch : Char) : Bool := '0' ≤ ch && ch ≤ '9'

/-- Numeric value of a digit run, most significant first. -/
def digitsVal (ds : List Char) : Nat :=
  ds.foldl (fun n ch => n * 10 + (ch.toNat - '0'.toNat)) 0

/-- `std::stoi` (line 150): skip leading whitespace, optional sign, then a
non-empty base-10 digit run (trailing junk ignored); no digits means the
`std::invalid_argument` exception, modelled as `none`.  (The `int` overflow
exception is not modelled; cabin numbers are unbounded integers here.) -/
def stoiCpp (cs : List Char) : Option Int :=
  match cs.dropWhile isSpaceCpp with
  | [] => none
  | ch :: rest =>
    if ch = '-' then
      if rest.takeWhile isDigitCpp = [] then none
      else some (-(digitsVal (rest.takeWhile isDigitCpp) : Int))
    else if ch = '+' then
      if rest.takeWhile isDigitCpp = [] then none
      else some (digitsVal (rest.takeWhile isDigitCpp))
    else
      if isDigitCpp ch then
        some (digitsVal ((ch :: rest).takeWhile isDigitCpp))
      else none

/-- Parsing one data row (lines 141-154): four comma-separated fields in
order name, cabin number (via `stoi`), cabin type, destination port. -/
def parseRow (row : List Char) : Option Passenger :=
  match stoiCpp (fieldAt row 1) with
  | none => none
  | some n =>
    some ⟨String.mk (fieldAt row 0), n, String.mk (fieldAt row 2),
      String.mk (fieldAt row 3)⟩

/-- The row-reading loop of `loadPassengers`: each row is parsed and pushed;
an unparseable integer raises an uncaught exception (`.error`), aborting the
whole load with no partial result. -/
def loadRows : List (List Char) → Except Unit (List Passenger)
  | [] => .ok []
  | r :: rs =>
    match parseRow r with
    | none => .error ()
    | some pp =>
      match loadRows rs with
      | .error e => .error e
      | .ok ps => .ok (pp :: ps)

/-- `loadPassengers` (lines 134-157): `none` file means the stream failed to
open and the empty vector is returned normally; otherwise the header line is
skipped and the data rows are parsed. -/
def loadPassengers (file : Option (List Char)) : Except Unit (List Passenger) :=
  match file with
  | none => .ok []
  | some cs => loadRows ((getlines cs).drop 1)

/-- Fuel-bounded core of `natDecimal`; the wrapper always supplies enough
fuel. -/
def natDecimalF : Nat → Nat → List Char
  | 0, _ => []
  | fuel+1, n =>
    if n < 10 then [Char.ofNat ('0'.toNat + n)]
    else natDecimalF fuel (n / 10) ++ [Char.ofNat ('0'.toNat + n % 10)]

/-- Decimal digits of a natural number, most significant first (the digits
`operator<<` prints). -/
def natDecimal (n : Nat) : List Char := natDecimalF (n + 1) n

/-- `operator<<` for an `int` value: optional minus sign then decimal
digits. -/
def intDecimal (n : Int) : List Char :=
  if n < 0 then '-' :: natDecimal (-n).toNat else natDecimal n.toNat

/-- The output header of `savePassengers` (line 167), without its trailing
newline. -/
def saveHeaderBody : List Char :=
  "ФИО пассажира,Номер каюты,Тип каюты,Порт назначения".data

/-- One output row of `savePassengers` (line 169) without its trailing
newline: the four fields joined by commas. -/
def saveRowBody (pp : Passenger) : List Char :=
  pp.fullName.data ++ ',' :: (intDecimal pp.cabinNumber ++ ',' ::
    (pp.cabinType.data ++ ',' :: pp.destinationPort.data))

/-- `savePassengers` (lines 165-171): header line then one line per record.
(The file-name argument is irrelevant to the produced contents.) -/
def savePassengers (ps : List Passenger) : List Char :=
  (saveHeaderBody ++ ['\n']) ++ (ps.map (fun pp => saveRowBody pp ++ ['\n'])).flatten

theorem takeWhile_middle (p : Char → Bool) (xs ys : List Char) (y : Char)
    (h : ∀ x ∈ xs, p x = true) (hy : p y = false) :
    (xs ++ y :: ys).takeWhile p = xs ∧ (xs ++ y :: ys).dropWhile p = y :: ys := by
  induction xs with
  | nil =>
    constructor
    · simp [List.takeWhile_cons, hy]
    · simp [List.dropWhile_cons, hy]
  | cons a t ih =>
    have ha : p a = true := h a (by simp)
    obtain ⟨ih1, ih2⟩ := ih (fun x hx => h x (by simp [hx]))
    constructor
    · simp only [List.cons_append, List.takeWhile_cons, ha, if_true, ih1]
    · simp only [List.cons_append, List.dropWhile_cons, ha, if_true, ih2]

theorem takeWhile_all (p : Char → Bool) (xs : List Char)
    (h : ∀ x ∈ xs, p x = true) : xs.takeWhile p = xs := by
  induction xs with
  | nil => simp
  | cons a t ih =>
    simp only [List.takeWhile_cons, h a (by simp), if_true]
    rw [ih (fun x hx => h x (by simp [hx]))]

theorem dropWhile_all (p : Char → Bool) (xs : List Char)
    (h : ∀ x ∈ xs, p x = true) : xs.dropWhile p = [] := by
  induction xs with
  | nil => simp
  | cons a t ih =>
    simp only [List.dropWhile_cons, h a (by simp), if_true]
    exact ih (fun x hx => h x (by simp [hx]))

theorem getlines_append (line rest : List Char) (h : '\n' ∉ line) :
    getlines (line ++ '\n' :: rest) = line :: getlines rest := by
  have hmid := takeWhile_middle (fun x => decide (x ≠ '\n')) line rest '\n'
    (fun x hx => by
      simp only [decide_eq_true_eq]
      intro he
      exact h (he ▸ hx)) (by simp)
  cases line with
  | nil =>
    rw [List.nil_append] at hmid ⊢
    unfold getlines
    rw [getlinesF, hmid.1, hmid.2, List.drop_one, List.tail_cons]
    exact congrArg _ (getlinesF_congr _ _ rest (by simp) (by omega))
  | cons c cs =>
    unfold getlines
    rw [List.cons_append, getlinesF, ← List.cons_append, hmid.1, hmid.2,
      List.drop_one, List.tail_cons]
    refine congrArg _ (getlinesF_congr _ _ rest ?_ (by omega))
    simp
    omega

theorem getlines_flatten (rows : List (List Char))
    (h : ∀ r ∈ rows, '\n' ∉ r) :
    getlines ((rows.map (fun r => r ++ ['\n'])).flatten) = rows := by
  induction rows with
  | nil => rfl
  | cons r rs ih =>
    rw [List.map_cons, List.flatten_cons, List.append_assoc, List.singleton_append,
      getlines_append r _ (h r (by simp)), ih (fun x hx => h x (by simp [hx]))]

theorem splitD_append (c : Char) (pre rest : List Char) (h : c ∉ pre) :
    splitD c (pre ++ c :: rest) = pre :: splitD c rest := by
  have hmid := takeWhile_middle (fun x => decide (x ≠ c)) pre rest c
    (fun x hx => by
      simp only [decide_eq_true_eq]
      intro he
      exact h (he ▸ hx)) (by simp)
  unfold splitD
  rw [splitDF, hmid.1, hmid.2]
  exact congrArg _ (splitDF_congr _ _ c rest (by simp; omega) (by omega))

theorem splitD_last (c : Char) (cs : List Char) (h : c ∉ cs) :
    splitD c cs = [cs] := by
  have hall : ∀ x ∈ cs, (fun x => decide (x ≠ c)) x = true := fun x hx => by
    simp only [decide_eq_true_eq]
    intro he
    exact h (he ▸ hx)
  unfold splitD
  rw [splitDF, dropWhile_all _ _ hall, takeWhile_all _ _ hall]

theorem digitChar_isDigit (d : Nat) (h : d < 10) :
    isDigitCpp (Char.ofNat ('0'.toNat + d)) = true := by
  interval_cases d <;> decide

theorem digitChar_val (d : Nat) (h : d < 10) :
    (Char.ofNat ('0'.toNat + d)).toNat - '0'.toNat = d := by
  interval_cases d <;> decide

theorem natDecimalF_digits : ∀ (fuel n : Nat), n < fuel →
    ∀ ch ∈ natDecimalF fuel n, isDigitCpp ch = true := by
  intro fuel
  induction fuel with
  | zero =>
    intro n h
    omega
  | succ fuel ih =>
    intro n hn ch hch
    rw [natDecimalF] at hch
    by_cases h : n < 10
    · rw [if_pos h, List.mem_singleton] at hch
      rw [hch]
      exact digitChar_isDigit n h
    · rw [if_neg h] at hch
      rcases List.mem_append.mp hch with hch | hch
      · exact ih (n / 10) (by omega) ch hch
      · rw [List.mem_singleton] at hch
        rw [hch]
        exact digitChar_isDigit (n % 10) (by omega)

theorem natDecimal_digits (n : Nat) :
    ∀ ch ∈ natDecimal n, isDigitCpp ch = true :=
  natDecimalF_digits (n + 1) n (by omega)

theorem natDecimal_ne_nil (n : Nat) : natDecimal n ≠ [] := by
  unfold natDecimal
  rw [natDecimalF]
  split
  · simp
  · simp

theorem digitsVal_natDecimalF : ∀ (fuel n : Nat), n < fuel →
    digitsVal (natDecimalF fuel n) = n := by
  intro fuel
  induction fuel with
  | zero =>
    intro n h
    omega
  | succ fuel ih =>
    intro n hn
    rw [natDecimalF]
    by_cases h : n < 10
    · rw [if_pos h]
      unfold digitsVal
      simp only [List.foldl_cons, List.foldl_nil, Nat.zero_mul, Nat.zero_add]
      exact digitChar_val n h
    · rw [if_neg h]
      unfold digitsVal
      rw [List.foldl_append]
      simp only [List.foldl_cons, List.foldl_nil]
      have := ih (n / 10) (by omega)
      unfold digitsVal at this
      rw [this, digitChar_val (n % 10) (by omega)]
      omega

theorem digitsVal_natDecimal (n : Nat) : digitsVal (natDecimal n) = n :=
  digitsVal_natDecimalF (n + 1) n (by omega)

theorem digit_not_space {ch : Char} (h : isDigitCpp ch = true) :
    isSpaceCpp ch = false := by
  unfold isDigitCpp at h
  rw [Bool.and_eq_true, decide_eq_true_eq, decide_eq_true_eq] at h
  unfold isSpaceCpp
  simp only [Bool.or_eq_false_iff, decide_eq_false_iff_not]
  refine ⟨⟨⟨⟨⟨?_, ?_⟩, ?_⟩, ?_⟩, ?_⟩, ?_⟩ <;>
    (intro he; rw [he] at h; revert h; decide)

theorem digit_not_sign {ch : Char} (h : isDigitCpp ch = true) :
    ch ≠ '-' ∧ ch ≠ ',' ∧ ch ≠ '\n' ∧ ch ≠ '+' := by
  unfold isDigitCpp at h
  rw [Bool.and_eq_true, decide_eq_true_eq, decide_eq_true_eq] at h
  refine ⟨?_, ?_, ?_, ?_⟩ <;> (intro he; rw [he] at h; revert h; decide)

theorem stoi_natDecimal (m : Nat) : stoiCpp (natDecimal m) = some (m : Int) := by
  obtain ⟨d, ds, hds⟩ : ∃ d ds, natDecimal m = d :: ds := by
    cases h : natDecimal m with
    | nil => exact absurd h (natDecimal_ne_nil m)
    | cons d ds => exact ⟨d, ds, rfl⟩
  have hdig := natDecimal_digits m
  have hd : isDigitCpp d = true := hdig d (by rw [hds]; simp)
  simp only [stoiCpp, hds,
    List.dropWhile_cons_of_neg (show ¬ (isSpaceCpp d = true) by
      simp [digit_not_space hd])]
  rw [if_neg (digit_not_sign hd).1, if_neg (digit_not_sign hd).2.2.2,
    if_pos hd, ← hds, takeWhile_all _ _ hdig, digitsVal_natDecimal]

theorem stoi_intDecimal (n : Int) : stoiCpp (intDecimal n) = some n := by
  unfold intDecimal
  by_cases h : n < 0
  · rw [if_pos h]
    have hdig := natDecimal_digits (-n).toNat
    obtain ⟨d, ds, hds⟩ : ∃ d ds, natDecimal (-n).toNat = d :: ds := by
      cases hh : natDecimal (-n).toNat with
      | nil => exact absurd hh (natDecimal_ne_nil _)
      | cons d ds => exact ⟨d, ds, rfl⟩
    simp only [stoiCpp,
      List.dropWhile_cons_of_neg (show ¬ (isSpaceCpp '-' = true) by decide)]
    rw [if_pos trivial, takeWhile_all _ _ hdig, if_neg (natDecimal_ne_nil _),
      digitsVal_natDecimal]
    congr 1
    omega
  · rw [if_neg h]
    rw [stoi_natDecimal]
    congr 1
    omega

theorem intDecimal_chars (n : Int) :
    ∀ ch ∈ intDecimal n, ch ≠ ',' ∧ ch ≠ '\n' := by
  intro ch hch
  unfold intDecimal at hch
  by_cases h : n < 0
  · rw [if_pos h] at hch
    rcases List.mem_cons.mp hch with hch | hch
    · rw [hch]
      exact ⟨by decide, by decide⟩
    · have := natDecimal_digits _ ch hch
      exact ⟨(digit_not_sign this).2.1, (digit_not_sign this).2.2.1⟩
  · rw [if_neg h] at hch
    have := natDecimal_digits _ ch hch
    exact ⟨(digit_not_sign this).2.1, (digit_not_sign this).2.2.1⟩

/-- The amended round-trip hypothesis: the three string fields contain
neither the comma delimiter nor a newline. -/
def cleanP (pp : Passenger) : Prop :=
  (',' ∉ pp.fullName.data ∧ '\n' ∉ pp.fullName.data) ∧
    (',' ∉ pp.cabinType.data ∧ '\n' ∉ pp.cabinType.data) ∧
    (',' ∉ pp.destinationPort.data ∧ '\n' ∉ pp.destinationPort.data)

instance (pp : Passenger) : Decidable (cleanP pp) := by
  unfold cleanP
  infer_instance

theorem string_mk_data (s : String) : String.mk s.data = s := by
  cases s
  rfl

theorem parseRow_saveRowBody (pp : Passenger) (h : cleanP pp) :
    parseRow (saveRowBody pp) = some pp := by
  obtain ⟨f, c, t, d⟩ := pp
  obtain ⟨⟨h1, _⟩, ⟨h2, _⟩, ⟨h3, _⟩⟩ := h
  simp only at h1 h2 h3
  have hic : ',' ∉ intDecimal c := by
    intro hm
    exact (intDecimal_chars _ _ hm).1 rfl
  have hsplit : splitD ',' (saveRowBody ⟨f, c, t, d⟩) =
      [f.data, intDecimal c, t.data, d.data] := by
    unfold saveRowBody
    rw [splitD_append _ _ _ h1, splitD_append _ _ _ hic, splitD_append _ _ _ h2,
      splitD_last _ _ h3]
  unfold parseRow fieldAt
  rw [hsplit]
  rw [show (([f.data, intDecimal c, t.data, d.data] :
      List (List Char)).getD 1 []) = intDecimal c from rfl, stoi_intDecimal]
  simp only [string_mk_data]
  rfl

theorem saveRowBody_no_nl (pp : Passenger) (h : cleanP pp) :
    '\n' ∉ saveRowBody pp := by
  obtain ⟨⟨_, h1⟩, ⟨_, h2⟩, ⟨_, h3⟩⟩ := h
  unfold saveRowBody
  intro hm
  rcases List.mem_append.mp hm with hm | hm
  · exact h1 hm
  · rcases List.mem_cons.mp hm with hm | hm
    · exact absurd hm (by decide)
    · rcases List.mem_append.mp hm with hm | hm
      · exact (intDecimal_chars _ _ hm).2 rfl
      · rcases List.mem_cons.mp hm with hm | hm
        · exact absurd hm (by decide)
        · rcases List.mem_append.mp hm with hm | hm
          · exact h2 hm
          · rcases List.mem_cons.mp hm with hm | hm
            · exact absurd hm (by decide)
            · exact h3 hm

theorem loadRows_saveRowBody (ps : List Passenger) (h : ∀ pp ∈ ps, cleanP pp) :
    loadRows (ps.map saveRowBody) = .ok ps := by
  induction ps with
  | nil => rfl
  | cons pp ps ih =>
    rw [List.map_cons, loadRows, parseRow_saveRowBody pp (h pp (by simp)),
      ih (fun q hq => h q (by simp [hq]))]

/-- Write/parse round trip for records whose fields contain neither the
delimiter nor a newline: `loadPassengers` recovers the saved sequence
field-for-field. -/
theorem load_save_roundTrip (ps : List Passenger) (h : ∀ pp ∈ ps, cleanP pp) :
    loadPassengers (some (savePassengers ps)) = .ok ps := by
  show loadRows ((getlines (savePassengers ps)).drop 1) = .ok ps
  unfold savePassengers
  have hmap : ps.map (fun pp => saveRowBody pp ++ ['\n']) =
      (ps.map saveRowBody).map (fun r => r ++ ['\n']) := by
    rw [List.map_map]
    rfl
  rw [hmap, List.append_assoc, List.singleton_append,
    getlines_append _ _ (by decide),
    getlines_flatten _ (by
      intro r hr
      obtain ⟨pp, hpp, hpr⟩ := List.mem_map.mp hr
      rw [← hpr]
      exact saveRowBody_no_nl pp (h pp hpp)),
    List.drop_one, List.tail_cons, loadRows_saveRowBody ps h]

/-! ## Benchmark driver (`main`, main.cpp lines 177-223) -/

/-- The configured benchmark sizes (line 179). -/
def sizes : List Nat :=
  [100, 1000, 3000, 5000, 7000, 10000, 20000, 30000, 50000, 70000, 100000]

/-- The prefix slice `std::vector<Passenger>(allPassengers.begin(),
allPassengers.begin() + size)` (line 187).  When `size` exceeds the vector
length the end iterator is out of bounds — a fault (`none`), never a
truncated copy. -/
def slicePrefix (l : List Passenger) (size : Nat) : Option (List Passenger) :=
  if size ≤ l.length then some (l.take size) else none

/-- The timing-log header written at line 184 — with no trailing newline,
exactly as the code writes it. -/
def timingHeader : List Char :=
  "Size,SelectionSort,InsertionSort,QuickSort,StdSort".data

/-- One timing row's text without its trailing newline: size and the four
durations, comma-separated (lines 198-216). -/
def timingRowBody (e : Int × Int × Int × Int × Int) : List Char :=
  intDecimal e.1 ++ ',' :: (intDecimal e.2.1 ++ ',' :: (intDecimal e.2.2.1 ++
    ',' :: (intDecimal e.2.2.2.1 ++ ',' :: intDecimal e.2.2.2.2)))

/-- One timing row as written: the row body then `"\n"` (line 216). -/
def timingRow (e : Int × Int × Int × Int × Int) : List Char :=
  timingRowBody e ++ ['\n']

/-- The per-size loop of `main` (lines 186-221).  `durs size` is the oracle
supplying the four measured wall-clock durations for that size (timing is
external to the model).  Produces the log rows written and the
`(file name, contents)` pairs saved; `none` is a fatal fault (out-of-bounds
slice, or the out-of-bounds access of `quickSortR` on an empty slice). -/
def processSizes (durs : Nat → Int × Int × Int × Int) (szs : List Nat)
    (all : List Passenger) : Option (List Char × List (String × List Char)) :=
  match szs with
  | [] => some ([], [])
  | size :: rest =>
    match slicePrefix all size with
    | none => none
    | some passengers =>
      let selSorted := selectionSort passengers
      let insSorted := insertionSort passengers
      match quickSortR passengers with
      | none => none
      | some qckSorted =>
        let _stdSorted := stdSort passengers
        match processSizes durs rest all with
        | none => none
        | some (logRest, filesRest) =>
          some (timingRow ((size : Int), (durs size).1, (durs size).2.1,
              (durs size).2.2.1, (durs size).2.2.2) ++ logRest,
            ("sorted/ss_" ++ toString size ++ ".csv", savePassengers selSorted) ::
            ("sorted/is_" ++ toString size ++ ".csv", savePassengers insSorted) ::
            ("sorted/qs_" ++ toString size ++ ".csv", savePassengers qckSorted) ::
            filesRest)

/-- The observable outcome of a run of `main`: the exit status, the contents
of `timings.csv` (`none` when the file was never created), and the saved
sorted files. -/
structure MainOut where
  exitCode : Nat
  timings : Option (List Char)
  files : List (String × List Char)
deriving DecidableEq

/-- `main` (lines 177-223): load the dataset (`none` input = the file did
not open); an empty result exits with status 1 before the log file is
created; otherwise every configured size is processed and the run exits with
status 0.  A `none` result is a fatal fault that aborts the process
(uncaught `std::stoi` exception, or an out-of-bounds prefix slice). -/
def mainModel (file : Option (List Char)) (durs : Nat → Int × Int × Int × Int) :
    Option MainOut :=
  match loadPassengers file with
  | .error _ => none
  | .ok allPassengers =>
    if allPassengers = [] then some ⟨1, none, []⟩
    else
      match processSizes durs sizes allPassengers with
      | none => none
      | some (logRows, files) => some ⟨0, some (timingHeader ++ logRows), files⟩

theorem processSizes_none (durs : Nat → Int × Int × Int × Int) (szs : List Nat)
    (all : List Passenger) (hpos : ∀ s ∈ szs, 0 < s)
    (hex : ∃ s ∈ szs, all.length < s) :
    processSizes durs szs all = none := by
  induction szs with
  | nil => simp at hex
  | cons size rest ih =>
    rw [processSizes]
    by_cases hsz : size ≤ all.length
    · unfold slicePrefix
      rw [if_pos hsz]
      have hlen : (all.take size).length = size := by
        simp [List.length_take]
        omega
      obtain ⟨r, hr, _, _⟩ := quickSortR_spec (all.take size)
        (by
          intro hnil
          rw [hnil] at hlen
          simp at hlen
          have := hpos size (by simp)
          omega)
      simp only [hr]
      have hex' : ∃ s ∈ rest, all.length < s := by
        obtain ⟨s, hs1, hs2⟩ := hex
        rcases List.mem_cons.mp hs1 with hs | hs
        · omega
        · exact ⟨s, hs, hs2⟩
      rw [ih (fun s hs => hpos s (by simp [hs])) hex']
    · unfold slicePrefix
      rw [if_neg hsz]

theorem processSizes_some (durs : Nat → Int × Int × Int × Int) (szs : List Nat)
    (all : List Passenger) (hpos : ∀ s ∈ szs, 0 < s)
    (hcov : ∀ s ∈ szs, s ≤ all.length) :
    ∃ logRows files, processSizes durs szs all = some (logRows, files) := by
  induction szs with
  | nil => exact ⟨[], [], rfl⟩
  | cons size rest ih =>
    rw [processSizes]
    unfold slicePrefix
    rw [if_pos (hcov size (by simp))]
    have hlen : (all.take size).length = size := by
      simp [List.length_take]
      exact hcov size (by simp)
    obtain ⟨r, hr, _, _⟩ := quickSortR_spec (all.take size)
      (by
        intro hnil
        rw [hnil] at hlen
        simp at hlen
        have := hpos size (by simp)
        omega)
    simp only [hr]
    obtain ⟨logRest, filesRest, hrest⟩ := ih (fun s hs => hpos s (by simp [hs]))
      (fun s hs => hcov s (by simp [hs]))
    rw [hrest]
    exact ⟨_, _, rfl⟩

theorem processSizes_log (durs : Nat → Int × Int × Int × Int) (szs : List Nat)
    (all : List Passenger) (logRows : List Char)
    (files : List (String × List Char)) :
    processSizes durs szs all = some (logRows, files) →
    logRows = (szs.map (fun (s : Nat) => timingRow ((s : Int), (durs s).1,
      (durs s).2.1, (durs s).2.2.1, (durs s).2.2.2))).flatten := by
  induction szs generalizing logRows files with
  | nil =>
    intro h
    rw [processSizes] at h
    simp at h
    simp [h.1]
  | cons size rest ih =>
    intro h
    rw [processSizes] at h
    split at h
    · exact absurd h (by simp)
    · split at h
      · exact absurd h (by simp)
      · split at h
        · exact absurd h (by simp)
        · rename_i passengers hslice qck hqck pr logRest filesRest hrest
          rw [Option.some_inj] at h
          have h1 : logRows = timingRow ((size : Int), (durs size).1,
              (durs size).2.1, (durs size).2.2.1, (durs size).2.2.2) ++ logRest :=
            ((Prod.mk.injEq .. ▸ h).1).symm
          rw [h1, ih logRest filesRest hrest, List.map_cons, List.flatten_cons]
  
theorem timingRowBody_no_nl (e : Int × Int × Int × Int × Int) :
    '\n' ∉ timingRowBody e := by
  unfold timingRowBody
  intro hm
  rcases List.mem_append.mp hm with hm | hm
  · exact (intDecimal_chars _ _ hm).2 rfl
  · rcases List.mem_cons.mp hm with hm | hm
    · exact absurd hm (by decide)
    · rcases List.mem_append.mp hm with hm | hm
      · exact (intDecimal_chars _ _ hm).2 rfl
      · rcases List.mem_cons.mp hm with hm | hm
        · exact absurd hm (by decide)
        · rcases List.mem_append.mp hm with hm | hm
          · exact (intDecimal_chars _ _ hm).2 rfl
          · rcases List.mem_cons.mp hm with hm | hm
            · exact absurd hm (by decide)
            · rcases List.mem_append.mp hm with hm | hm
              · exact (intDecimal_chars _ _ hm).2 rfl
              · rcases List.mem_cons.mp hm with hm | hm
                · exact absurd hm (by decide)
                · exact (intDecimal_chars _ _ hm).2 rfl

theorem getlines_timingRows (es : List (Int × Int × Int × Int × Int)) :
    getlines ((es.map timingRow).flatten) = es.map timingRowBody := by
  have hmap : es.map timingRow =
      (es.map timingRowBody).map (fun r => r ++ ['\n']) := by
    rw [List.map_map]
    rfl
  rw [hmap, getlines_flatten]
  intro r hr
  obtain ⟨x, _, hx⟩ := List.mem_map.mp hr
  rw [← hx]
  exact timingRowBody_no_nl x

/-- The merged first line: the header is written without a newline, so the
first size's row continues the header's line; later rows are separate
lines. -/
theorem getlines_timingLog (e : Int × Int × Int × Int × Int)
    (es : List (Int × Int × Int × Int × Int)) :
    getlines (timingHeader ++ ((e :: es).map timingRow).flatten) =
      (timingHeader ++ timingRowBody e) :: es.map timingRowBody := by
  rw [List.map_cons, List.flatten_cons]
  rw [show timingRow e = timingRowBody e ++ ['\n'] from rfl]
  rw [List.append_assoc, List.singleton_append, ← List.append_assoc]
  rw [getlines_append _ _ (by
    intro hm
    rcases List.mem_append.mp hm with hm | hm
    · revert hm
      decide
    · exact timingRowBody_no_nl e hm)]
  rw [getlines_timingRows]

theorem loadRows_error (rows : List (List Char))
    (hex : ∃ r ∈ rows, stoiCpp (fieldAt r 1) = none) :
    loadRows rows = .error () := by
  induction rows with
  | nil => simp at hex
  | cons r rs ih =>
    rw [loadRows]
    cases hp : parseRow r with
    | none => rfl
    | some pp =>
      obtain ⟨r', hr1, hr2⟩ := hex
      rcases List.mem_cons.mp hr1 with hr | hr
      · exfalso
        rw [← hr] at hp
        unfold parseRow at hp
        rw [hr2] at hp
        exact Option.noConfusion hp
      · rw [ih ⟨r', hr, hr2⟩]

/-! ## Claim theorems -/

deriving instance DecidableEq for Except

/-- Sample records used by the witnesses; distinct cabin numbers keep the
comparisons decidable in one step. -/
def pA : Passenger := ⟨"Ann", 1, "1", "X"⟩

def pB : Passenger := ⟨"Bob", 2, "1", "X"⟩

def pC : Passenger := ⟨"Cat", 3, "2", "Y"⟩

/-- A record whose name contains a newline but no comma. -/
def pNl : Passenger := ⟨"a\nb", 1, "t", "p"⟩

def pT1 : Passenger := ⟨"Nia", 5, "Люкс", "P"⟩

def pT2 : Passenger := ⟨"Nia", 5, "3", "P"⟩

/-- C1 fails as stated at the concrete input `S = []`: `quickSortR` reads
`arr[arr.size() >> 1]` on the empty vector — an out-of-bounds access
(modelled `none`) — so it does not return a sorted permutation of `S`. -/
theorem C1_counterexample :
    quickSortR ([] : List Passenger) = none ∧
      ∀ r : List Passenger,
        ¬ (quickSortR [] = some r ∧ List.Perm r [] ∧ SortedP r) := by
  refine ⟨rfl, ?_⟩
  intro r h
  exact Option.noConfusion h.1

/-- C1 (amended): `selectionSort`, `insertionSort` and the reference
`std::sort` return a permutation of the input that is non-decreasing under
the three-key order, for every finite sequence; `quickSortR` does so for
every non-empty sequence (on the empty sequence it faults with an
out-of-bounds access instead). -/
theorem C1_sorts_sorted_permutation (l : List Passenger) :
    List.Perm (selectionSort l) l ∧ SortedP (selectionSort l) ∧
    List.Perm (insertionSort l) l ∧ SortedP (insertionSort l) ∧
    List.Perm (stdSort l) l ∧ SortedP (stdSort l) ∧
    (l ≠ [] → ∃ r, quickSortR l = some r ∧ List.Perm r l ∧ SortedP r) := by
  obtain ⟨s1, s2⟩ := selectionSort_spec l
  obtain ⟨i1, i2⟩ := insertionSort_spec l
  obtain ⟨t1, t2⟩ := stdSort_spec l
  refine ⟨s1, (sortedP_iff _).mpr s2, i1, (sortedP_iff _).mpr i2, t1,
    (sortedP_iff _).mpr t2, ?_⟩
  intro hne
  obtain ⟨r, h1, h2, h3⟩ := quickSortR_spec l hne
  exact ⟨r, h1, h2, (sortedP_iff _).mpr h3⟩

theorem C1_witness :
    ([pB, pA] ≠ []) ∧
      (∃ r, quickSortR [pB, pA] = some r ∧ List.Perm r [pB, pA] ∧ SortedP r) :=
  ⟨by decide, (C1_sorts_sorted_permutation [pB, pA]).2.2.2.2.2.2 (by decide)⟩

/-- C2: the record `operator<` is irreflexive, transitive and asymmetric (a
strict weak ordering over the three key fields), and `>`, `<=`, `>=` are
definitionally the inversion and negations of `<`. -/
theorem C2_strict_weak_order (a b c : Passenger) :
    Passenger.lt a a = false ∧
    (Passenger.lt a b = true → Passenger.lt b c = true →
      Passenger.lt a c = true) ∧
    (Passenger.lt a b = true → Passenger.lt b a = false) ∧
    Passenger.gt a b = Passenger.lt b a ∧
    Passenger.le a b = !(Passenger.lt b a) ∧
    Passenger.ge a b = !(Passenger.lt a b) :=
  ⟨Passenger.lt_self a, Passenger.lt_trans', Passenger.lt_asymm', rfl, rfl, rfl⟩

theorem C2_witness :
    Passenger.lt pA pA = false ∧ Passenger.lt pA pC = true ∧
    Passenger.lt pB pA = false ∧ Passenger.gt pA pB = Passenger.lt pB pA ∧
    Passenger.le pA pB = !(Passenger.lt pB pA) ∧
    Passenger.ge pA pB = !(Passenger.lt pA pB) := by
  obtain ⟨h1, h2, h3, h4, h5, h6⟩ := C2_strict_weak_order pA pB pC
  exact ⟨h1, h2 (by decide) (by decide), h3 (by decide), h4, h5, h6⟩

/-- C3: `quickSortR` terminates normally on every non-empty vector: the
partition loop always exits with `i > j`, and each recursive call (guarded
by `j > 0` and `i < arr.size()`) runs on a strictly shorter fresh copy, so
the recursion bottoms out and a result is produced. -/
theorem C3_quickSortR_terminates (l : List Passenger) (hne : l ≠ []) :
    ∃ r, quickSortR l = some r := by
  obtain ⟨r, h, _, _⟩ := quickSortR_spec l hne
  exact ⟨r, h⟩

theorem C3_witness :
    ([pA, pC, pB] ≠ []) ∧ ∃ r, quickSortR [pA, pC, pB] = some r :=
  ⟨by decide, C3_quickSortR_terminates [pA, pC, pB] (by decide)⟩

/-- C4 fails as stated: on the empty sequence `quickSortR` is not a no-op —
it reads `arr[0]` out of bounds (modelled `none`), rather than returning the
sequence unchanged. -/
theorem C4_counterexample :
    quickSortR ([] : List Passenger) ≠ some [] ∧
      quickSortR ([] : List Passenger) = none :=
  ⟨by decide, rfl⟩

/-- C4 (amended): `selectionSort`, `insertionSort` and `std::sort` are
no-ops on the empty and on any single-element sequence; `quickSortR` is a
no-op on any single-element sequence, but performs an out-of-bounds access
on the empty sequence. -/
theorem C4_boundary_noop (x : Passenger) :
    selectionSort [] = [] ∧ selectionSort [x] = [x] ∧
    insertionSort [] = [] ∧ insertionSort [x] = [x] ∧
    stdSort [] = [] ∧ stdSort [x] = [x] ∧
    quickSortR [x] = some [x] := by
  refine ⟨?_, ?_, rfl, rfl, rfl, rfl, ?_⟩
  · rw [selectionSort, selSortAux, dif_neg (by simp)]
  · rw [selectionSort, selSortAux, dif_neg (by simp)]
  · obtain ⟨r, h1, h2, _⟩ := quickSortR_spec [x] (by simp)
    rw [h1, List.perm_singleton.mp h2]

/-- C5: when the dataset is shorter than some configured size, the prefix
slice `vector(begin, begin + size)` is an out-of-bounds fault (modelled
`none`): the run aborts and no truncated prefix is ever produced.  (In C++
the out-of-range end iterator is undefined behaviour; the model treats it as
the fatal out-of-bounds condition the spec describes.) -/
theorem C5_oversized_slice_fatal (file : Option (List Char))
    (durs : Nat → Int × Int × Int × Int) (all : List Passenger)
    (hload : loadPassengers file = .ok all) (hne : all ≠ [])
    (hshort : ∃ s ∈ sizes, all.length < s) :
    mainModel file durs = none ∧
      ∀ s, all.length < s → slicePrefix all s = none ∧
        ∀ r, slicePrefix all s ≠ some r := by
  constructor
  · unfold mainModel
    simp only [hload]
    rw [if_neg hne, processSizes_none durs sizes all (by decide) hshort]
  · intro s hs
    unfold slicePrefix
    rw [if_neg (by omega)]
    exact ⟨rfl, fun r h => Option.noConfusion h⟩

theorem C5_witness :
    loadPassengers (some (savePassengers [pA])) = .ok [pA] ∧ [pA] ≠ [] ∧
    (∃ s ∈ sizes, [pA].length < s) ∧
    mainModel (some (savePassengers [pA])) (fun _ => (0, 0, 0, 0)) = none :=
  ⟨load_save_roundTrip [pA] (by decide), by decide, ⟨100, by decide, by decide⟩,
    (C5_oversized_slice_fatal (some (savePassengers [pA])) (fun _ => (0, 0, 0, 0))
      [pA] (load_save_roundTrip [pA] (by decide)) (by decide)
      ⟨100, by decide, by decide⟩).1⟩

/-- The timing entries the driver logs: the size and the four measured
durations, in column order. -/
def timingEntry (durs : Nat → Int × Int × Int × Int) (s : Nat) :
    Int × Int × Int × Int × Int :=
  ((s : Int), (durs s).1, (durs s).2.1, (durs s).2.2.1, (durs s).2.2.2)

/-- C6 fails as stated at concrete durations (all zero): the header is
written with no trailing newline (line 184), so splitting the log into
lines does not give the header line followed by one row per size — the
first size's row is glued onto the header's line. -/
theorem C6_counterexample :
    getlines (timingHeader ++ ((sizes.map (fun (s : Nat) =>
        timingRow ((s : Int), 0, 0, 0, 0))).flatten)) ≠
      timingHeader :: sizes.map (fun (s : Nat) =>
        timingRowBody ((s : Int), 0, 0, 0, 0)) := by
  decide

/-- C6 (amended): on a successful run the timing log consists of the header
text followed by one comma-separated row `size,t1,t2,t3,t4` per configured
size in order, except that the header lacks a trailing newline, so the
first size's row shares the header's line; the remaining rows are separate
lines. -/
theorem C6_timing_log_layout (file : Option (List Char))
    (durs : Nat → Int × Int × Int × Int) (all : List Passenger)
    (hload : loadPassengers file = .ok all) (hne : all ≠ [])
    (hcov : ∀ s ∈ sizes, s ≤ all.length) :
    ∃ logRows files,
      mainModel file durs = some ⟨0, some (timingHeader ++ logRows), files⟩ ∧
      getlines (timingHeader ++ logRows) =
        (timingHeader ++ timingRowBody (timingEntry durs 100)) ::
          (sizes.drop 1).map (fun (s : Nat) =>
            timingRowBody (timingEntry durs s)) := by
  obtain ⟨lr, fl, hps⟩ := processSizes_some durs sizes all (by decide) hcov
  have hlog : lr = (sizes.map (fun (s : Nat) =>
      timingRow (timingEntry durs s))).flatten :=
    processSizes_log durs sizes all lr fl hps
  refine ⟨lr, fl, ?_, ?_⟩
  · unfold mainModel
    simp only [hload]
    rw [if_neg hne, hps]
  · have h1 : sizes.map (fun (s : Nat) => timingRow (timingEntry durs s)) =
        (sizes.map (timingEntry durs)).map timingRow := by
      rw [List.map_map]
      rfl
    have h2 : sizes.map (timingEntry durs) =
        timingEntry durs 100 :: (sizes.drop 1).map (timingEntry durs) := rfl
    rw [hlog, h1, h2, getlines_timingLog, List.map_map]
    rfl

theorem C6_witness :
    (loadPassengers (some (savePassengers (List.replicate 100000 pA))) =
      .ok (List.replicate 100000 pA)) ∧
    List.replicate 100000 pA ≠ [] ∧
    (∀ s ∈ sizes, s ≤ (List.replicate 100000 pA).length) ∧
    ∃ logRows files,
      mainModel (some (savePassengers (List.replicate 100000 pA)))
          (fun _ => (0, 0, 0, 0)) =
        some ⟨0, some (timingHeader ++ logRows), files⟩ ∧
      getlines (timingHeader ++ logRows) =
        (timingHeader ++
            timingRowBody (timingEntry (fun _ => (0, 0, 0, 0)) 100)) ::
          (sizes.drop 1).map (fun (s : Nat) =>
            timingRowBody (timingEntry (fun _ => (0, 0, 0, 0)) s)) := by
  have hload := load_save_roundTrip (List.replicate 100000 pA)
    (fun pp hpp => by rw [List.eq_of_mem_replicate hpp]; decide)
  have hne : List.replicate 100000 pA ≠ [] := by
    apply List.ne_nil_of_length_pos
    rw [List.length_replicate]
    omega
  have hcov : ∀ s ∈ sizes, s ≤ (List.replicate 100000 pA).length := by
    intro s hs
    rw [List.length_replicate]
    have h100 : ∀ s ∈ sizes, s ≤ 100000 := by decide
    exact h100 s hs
  exact ⟨hload, hne, hcov, C6_timing_log_layout _ _ _ hload hne hcov⟩

/-- C7: with a missing/unreadable input file the loader returns the empty
vector normally and `main` exits with status 1 before writing anything;
with a loadable, non-empty dataset covering every configured size, `main`
runs to completion with exit status 0 and produces the timing log. -/
theorem C7_exit_codes (file : Option (List Char))
    (durs : Nat → Int × Int × Int × Int) (all : List Passenger) :
    (file = none → loadPassengers file = .ok [] ∧
      mainModel file durs = some ⟨1, none, []⟩) ∧
    (loadPassengers file = .ok all → all ≠ [] →
      (∀ s ∈ sizes, s ≤ all.length) →
      ∃ out, mainModel file durs = some out ∧ out.exitCode = 0 ∧
        out.timings ≠ none) := by
  constructor
  · rintro rfl
    exact ⟨rfl, rfl⟩
  · intro hload hne hcov
    obtain ⟨lr, fl, hps⟩ := processSizes_some durs sizes all (by decide) hcov
    refine ⟨⟨0, some (timingHeader ++ lr), fl⟩, ?_, rfl, by simp⟩
    unfold mainModel
    simp only [hload]
    rw [if_neg hne, hps]

theorem C7_witness :
    mainModel none (fun _ => (0, 0, 0, 0)) = some ⟨1, none, []⟩ ∧
    (loadPassengers (some (savePassengers (List.replicate 100000 pA))) =
      .ok (List.replicate 100000 pA)) ∧
    List.replicate 100000 pA ≠ [] ∧
    (∀ s ∈ sizes, s ≤ (List.replicate 100000 pA).length) ∧
    ∃ out, mainModel (some (savePassengers (List.replicate 100000 pA)))
        (fun _ => (0, 0, 0, 0)) = some out ∧ out.exitCode = 0 ∧
      out.timings ≠ none := by
  have hload := load_save_roundTrip (List.replicate 100000 pA)
    (fun pp hpp => by rw [List.eq_of_mem_replicate hpp]; decide)
  have hne : List.replicate 100000 pA ≠ [] := by
    apply List.ne_nil_of_length_pos
    rw [List.length_replicate]
    omega
  have hcov : ∀ s ∈ sizes, s ≤ (List.replicate 100000 pA).length := by
    intro s hs
    rw [List.length_replicate]
    have h100 : ∀ s ∈ sizes, s ≤ 100000 := by decide
    exact h100 s hs
  exact ⟨((C7_exit_codes none (fun _ => (0, 0, 0, 0)) []).1 rfl).2,
    hload, hne, hcov, (C7_exit_codes _ _ _).2 hload hne hcov⟩

/-- C8: a data row whose second field does not parse as an integer makes
`std::stoi` throw; the exception is uncaught, so the whole load aborts with
no partial result — the malformed row is never skipped. -/
theorem C8_malformed_integer_fatal (cs : List Char)
    (h : ∃ row ∈ (getlines cs).drop 1, stoiCpp (fieldAt row 1) = none) :
    loadPassengers (some cs) = .error () := by
  show loadRows ((getlines cs).drop 1) = .error ()
  exact loadRows_error _ h

theorem C8_witness :
    (∃ row ∈ (getlines "h\na,x,t,p\nq,7,t,p\n".data).drop 1,
      stoiCpp (fieldAt row 1) = none) ∧
    loadPassengers (some "h\na,x,t,p\nq,7,t,p\n".data) = .error () :=
  ⟨by decide, C8_malformed_integer_fatal "h\na,x,t,p\nq,7,t,p\n".data (by decide)⟩

/-- C9 fails as stated at a concrete record whose name contains a newline
but no comma: the claim's delimiter-free proviso holds, yet saving and
re-loading does not recover the record — the embedded newline splits it
across two rows and the load aborts on the malformed second row. -/
theorem C9_counterexample :
    (',' ∉ pNl.fullName.data ∧ ',' ∉ pNl.cabinType.data ∧
      ',' ∉ pNl.destinationPort.data) ∧
    loadPassengers (some (savePassengers [pNl])) ≠ .ok [pNl] := by
  exact ⟨by decide, by decide⟩

/-- C9 (amended): saving any sequence of records and re-loading the written
bytes recovers the sequence field-for-field, provided no string field
contains the comma delimiter or a newline. -/
theorem C9_save_load_round_trip (ps : List Passenger)
    (h : ∀ pp ∈ ps, cleanP pp) :
    loadPassengers (some (savePassengers ps)) = .ok ps :=
  load_save_roundTrip ps h

theorem C9_witness :
    (∀ pp ∈ [pA], cleanP pp) ∧
      loadPassengers (some (savePassengers [pA])) = .ok [pA] :=
  ⟨by decide, C9_save_load_round_trip [pA] (by decide)⟩

/-- C10: the comparison never inspects `cabinType`: two records agreeing on
cabin number, destination port and full name are equivalent under
`operator<` (neither compares less) whatever their cabin types. -/
theorem C10_cabinType_ignored (a b : Passenger)
    (hc : a.cabinNumber = b.cabinNumber)
    (hd : a.destinationPort = b.destinationPort)
    (hn : a.fullName = b.fullName) :
    Passenger.lt a b = false ∧ Passenger.lt b a = false := by
  obtain ⟨h1, h2⟩ := Passenger.lt_congr hc hd hn
  constructor
  · rw [h2 b]
    exact Passenger.lt_self b
  · rw [h1 b]
    exact Passenger.lt_self b

theorem C10_witness :
    pT1.cabinNumber = pT2.cabinNumber ∧
    pT1.destinationPort = pT2.destinationPort ∧
    pT1.fullName = pT2.fullName ∧ pT1.cabinType ≠ pT2.cabinType ∧
    Passenger.lt pT1 pT2 = false ∧ Passenger.lt pT2 pT1 = false := by
  obtain ⟨h1, h2⟩ := C10_cabinType_ignored pT1 pT2 rfl rfl rfl
  exact ⟨rfl, rfl, rfl, by decide, h1, h2⟩
